import Mathlib

/-!
Verification development for the `Searchengine` repository
(`src/webcrawler/webcrawler.py`).

The Python source is shallowly embedded into Lean:

* Strings are modelled as `List Char` (`Str`).
* The parts of CPython's `urllib.parse` that the crawler calls
  (`urlparse`, `urlunparse`, `urljoin` and their helpers) are translated
  from the CPython 3.11.6 standard library, which is the library the
  crawler's `normalize_url`, `make_name_from_url`, `is_same_domain` and
  `extract_title_and_links` delegate to.  A raised `ValueError` is
  modelled as `none`.
* The crawler's own pure functions are translated line by line from
  `webcrawler.py`.
* The concurrent worker pool is modelled as a labelled transition system:
  one atomic step per lock-protected critical section, with the network
  fetch and the HTML extraction happening between critical sections.

Modelling notes (deviations forced by the embedding, none of which any
theorem below depends on):

* `_checknetloc` rejects some non-ASCII authorities via NFKC
  normalisation; Unicode NFKC tables are out of scope, so the model
  accepts every authority.  Every theorem below treats the authority as
  an opaque character list, so its truth is unaffected.
* Python `str.strip()` strips Unicode whitespace; the model strips the
  six ASCII whitespace characters, which is exact on ASCII input.
-/

/-- Python strings are modelled as lists of characters. -/
abbrev Str := List Char

/-- Converts a Lean string literal to the `Str` model. -/
def s2l (s : String) : Str := s.data

namespace UrlLib

/-- Characters valid in scheme names (`scheme_chars` in `urllib.parse`). -/
def isSchemeChar (c : Char) : Bool :=
  (('a' ≤ c ∧ c ≤ 'z') ∨ ('A' ≤ c ∧ c ≤ 'Z') ∨ ('0' ≤ c ∧ c ≤ '9') ∨
    c = '+' ∨ c = '-' ∨ c = '.')

/-- ASCII alphabetic test, as in `url[0].isascii() and url[0].isalpha()`. -/
def isAsciiAlpha (c : Char) : Bool :=
  (('a' ≤ c ∧ c ≤ 'z') ∨ ('A' ≤ c ∧ c ≤ 'Z'))

/-- ASCII lower-casing, as applied by `str.lower()` to a scheme that has
already been checked to consist of `scheme_chars` only. -/
def asciiLower (c : Char) : Char :=
  if 'A' ≤ c ∧ c ≤ 'Z' then Char.ofNat (c.toNat + 32) else c

/-- The unsafe bytes removed from every URL (`_UNSAFE_URL_BYTES_TO_REMOVE`). -/
def isUnsafeByte (c : Char) : Bool :=
  (c = '\t' ∨ c = '\r' ∨ c = '\n')

/-- Removes tab, carriage return and newline, as `urlsplit` does first. -/
def removeUnsafe (l : Str) : Str := l.filter (fun c => ¬ isUnsafeByte c)

/-- Membership in `_WHATWG_C0_CONTROL_OR_SPACE` (code points 0 to 0x20). -/
def isC0OrSpace (c : Char) : Bool := c.toNat ≤ 32

/-- Strips `_WHATWG_C0_CONTROL_OR_SPACE` from both ends. -/
def stripC0 (l : Str) : Str :=
  ((l.dropWhile isC0OrSpace).reverse.dropWhile isC0OrSpace).reverse

/-- Splits a list at the first occurrence of `c`; `none` if `c` is absent.
Models `url.split(c, 1)` (and `url.find(c)` based slicing). -/
def splitFirst (c : Char) : Str → Option (Str × Str)
  | [] => none
  | x :: xs =>
    if x = c then some ([], xs)
    else (splitFirst c xs).map (fun p => (x :: p.1, p.2))

/-- Splits a list at the last occurrence of `c`; `none` if `c` is absent. -/
def splitLast (c : Char) : Str → Option (Str × Str)
  | [] => none
  | x :: xs =>
    match splitLast c xs with
    | some (a, b) => some (x :: a, b)
    | none => if x = c then some ([], xs) else none

/-- ASCII decimal digit. -/
def isAsciiDigit (c : Char) : Bool := ('0' ≤ c ∧ c ≤ '9')

/-- ASCII hexadecimal digit (`_HEX_DIGITS` of `ipaddress`). -/
def isHexDigit (c : Char) : Bool :=
  (isAsciiDigit c ∨ ('a' ≤ c ∧ c ≤ 'f') ∨ ('A' ≤ c ∧ c ≤ 'F'))

/-- Python `s.split(sep)` for a one-character separator (always nonempty). -/
def pySplit (sep : Char) : Str → List Str
  | [] => [[]]
  | c :: rest =>
    if c = sep then [] :: pySplit sep rest
    else
      match pySplit sep rest with
      | [] => [[c]]
      | a :: as => (c :: a) :: as

/-- Decimal value of an ASCII digit string. -/
def decVal (o : Str) : Nat := o.foldl (fun a c => a * 10 + (c.toNat - 48)) 0

/-- Validity of one dotted-quad octet (`IPv4Address._parse_octet`):
nonempty, ASCII digits, at most three characters, no leading zero,
value at most 255. -/
def validOctet (o : Str) : Bool :=
  (o ≠ [] ∧ o.all isAsciiDigit ∧ o.length ≤ 3 ∧ (o = ['0'] ∨ o.head? ≠ some '0') ∧
    decVal o ≤ 255)

/-- Whether `IPv4Address(s)` succeeds on a string. -/
def isIPv4 (s : Str) : Bool :=
  ('/' ∉ s ∧
    (let os := pySplit '.' s
     os.length = 4 ∧ os.all validOctet))

/-- Validity of one IPv6 hextet (`IPv6Address._parse_hextet`). -/
def validHextet (h : Str) : Bool :=
  (h ≠ [] ∧ h.all isHexDigit ∧ h.length ≤ 4)

/-- Indices of the empty parts strictly inside the colon-split list,
as scanned by `IPv6Address._ip_int_from_string`. -/
def emptyIdxs (parts : List Str) : List Nat :=
  (List.range parts.length).filter
    (fun i => 1 ≤ i ∧ i + 1 < parts.length ∧ parts.getD i [' '] = [])

/-- The `::` bookkeeping of `IPv6Address._ip_int_from_string`, applied to
the colon-split parts (after any embedded IPv4 suffix was replaced by
two synthetic hextets). -/
def v6PartsOk (parts : List Str) : Bool :=
  decide (parts.length ≤ 9) &&
    match emptyIdxs parts with
    | [] =>
      decide (parts.length = 8 ∧ parts.headD [] ≠ [] ∧ parts.getLastD [] ≠ [] ∧
        parts.all validHextet)
    | [i] =>
      let headEmpty := parts.headD [' '] = []
      let lastEmpty := parts.getLastD [' '] = []
      let hi := if headEmpty then i - 1 else i
      let lo0 := parts.length - i - 1
      let lo := if lastEmpty then lo0 - 1 else lo0
      decide ((headEmpty → i = 1) ∧ (lastEmpty → lo0 = 1) ∧ hi + lo ≤ 7 ∧
        (parts.take hi).all validHextet ∧
        (parts.drop (parts.length - lo)).all validHextet)
    | _ => false

/-- Whether `IPv6Address._ip_int_from_string` succeeds on a scope-free
address string. -/
def v6AddrOk (addr : Str) : Bool :=
  decide (addr ≠ []) &&
    (let parts := pySplit ':' addr
     decide (3 ≤ parts.length) &&
       (let lastPart := parts.getLastD []
        if '.' ∈ lastPart then
          isIPv4 lastPart && v6PartsOk (parts.dropLast ++ [['0'], ['0']])
        else v6PartsOk parts))

/-- Whether `IPv6Address(s)` succeeds (scope id split per RFC 4007). -/
def isIPv6 (s : Str) : Bool :=
  decide ('/' ∉ s) &&
    match splitFirst '%' s with
    | none => v6AddrOk s
    | some p => decide (p.2 ≠ [] ∧ '%' ∉ p.2 ∧ v6AddrOk p.1)

/-- The text between the first `[` and the following `]` of the
authority: `netloc.partition('[')[2].partition(']')[0]`. -/
def hostnameOfBrackets (netloc : Str) : Str :=
  match splitFirst '[' netloc with
  | none => []
  | some (_, after) =>
    match splitFirst ']' after with
    | none => after
    | some (b, _) => b

/-- The IPvFuture pattern `v[a-fA-F0-9]+\..+` of `_check_bracketed_host`. -/
def vFutureOk : Str → Bool
  | 'v' :: rest =>
    let hex := rest.takeWhile isHexDigit
    decide (hex ≠ []) &&
      (match rest.drop hex.length with
       | '.' :: tl => decide (tl ≠ [])
       | _ => false)
  | _ => false

/-- CPython 3.11.6 `_check_bracketed_host`: an IPvFuture literal, or a
string accepted by `ipaddress.ip_address` that is not IPv4. -/
def checkBracketedHost (h : Str) : Bool :=
  if h.head? = some 'v' then vFutureOk h
  else if isIPv4 h then false
  else isIPv6 h

/-- Scans up to the first of `/`, `?`, `#`; models `_splitnetloc`
(the scan starts after the leading `//`, which the caller drops). -/
def splitnetlocCore : Str → Str × Str
  | [] => ([], [])
  | c :: rest =>
    if c = '/' ∨ c = '?' ∨ c = '#' then ([], c :: rest)
    else
      let p := splitnetlocCore rest
      (c :: p.1, p.2)

/-- True when the list starts with two slashes (`url[:2] == '//'`). -/
def startsSlashSlash : Str → Bool
  | '/' :: '/' :: _ => true
  | _ => false

/-- The bracket sanity check of `urlsplit`: a `ValueError` is raised when
exactly one of `[`, `]` occurs in the authority. -/
def bracketMismatch (netloc : Str) : Bool :=
  (('[' ∈ netloc ∧ ']' ∉ netloc) ∨ (']' ∈ netloc ∧ '[' ∉ netloc))

/-- Scheme detection of `urlsplit`: the text before the first `:` is taken
as the scheme when it is nonempty, starts with an ASCII letter and
consists of `scheme_chars`; it is then lower-cased. -/
def extractScheme (url : Str) : Option (Str × Str) :=
  match splitFirst ':' url with
  | none => none
  | some ([], _) => none
  | some (b :: bs, after) =>
    if isAsciiAlpha b ∧ (b :: bs).all isSchemeChar then
      some ((b :: bs).map asciiLower, after)
    else none

/-- Result of `urlsplit`. -/
structure SplitResult where
  scheme : Str
  netloc : Str
  path : Str
  query : Str
  fragment : Str
  deriving DecidableEq, Repr

/-- Result of `urlparse`. -/
structure ParseResult where
  scheme : Str
  netloc : Str
  path : Str
  params : Str
  query : Str
  fragment : Str
  deriving DecidableEq, Repr

/-- The fragment split of `urlsplit` (`url.split('#', 1)` when present). -/
def splitFrag (x : Str) : Str × Str :=
  match splitFirst '#' x with
  | some p => p
  | none => (x, [])

/-- The query split of `urlsplit` (`url.split('?', 1)` when present). -/
def splitQuery (x : Str) : Str × Str :=
  match splitFirst '?' x with
  | some p => p
  | none => (x, [])

/-- The netloc extraction and the two validity checks of `urlsplit`,
applied after scheme detection; `none` models a raised `ValueError`. -/
def urlsplitRest (scheme url2 : Str) : Option SplitResult :=
  let nl := if startsSlashSlash url2 then splitnetlocCore (url2.drop 2) else ([], url2)
  if bracketMismatch nl.1 then none
  else if ('[' ∈ nl.1 ∧ ']' ∈ nl.1) ∧ ¬ checkBracketedHost (hostnameOfBrackets nl.1) then
    none
  else
    let fr := splitFrag nl.2
    let qu := splitQuery fr.1
    some ⟨scheme, nl.1, qu.1, qu.2, fr.2⟩

/-- CPython 3.11.6 `urlsplit(url, scheme)` with `allow_fragments=True`.
`none` models a raised `ValueError`.  The NFKC-based `_checknetloc`
rejection is modelled as accepting (see the header note). -/
def urlsplit (url0 : Str) (defScheme : Str) : Option SplitResult :=
  let url1 := removeUnsafe (url0.dropWhile isC0OrSpace)
  let ds := removeUnsafe (stripC0 defScheme)
  match extractScheme url1 with
  | some p => urlsplitRest p.1 p.2
  | none => urlsplitRest ds url1

/-- The schemes that use parameters (`uses_params`). -/
def usesParams : List Str :=
  [s2l "", s2l "ftp", s2l "hdl", s2l "prospero", s2l "http", s2l "imap",
   s2l "https", s2l "shttp", s2l "rtsp", s2l "rtsps", s2l "rtspu", s2l "sip", s2l "sips",
   s2l "mms", s2l "sftp", s2l "tel"]

/-- The schemes that use a network location (`uses_netloc`). -/
def usesNetloc : List Str :=
  [s2l "", s2l "ftp", s2l "http", s2l "gopher", s2l "nntp", s2l "telnet",
   s2l "imap", s2l "wais", s2l "file", s2l "mms", s2l "https", s2l "shttp",
   s2l "snews", s2l "prospero", s2l "rtsp", s2l "rtsps", s2l "rtspu", s2l "rsync",
   s2l "svn", s2l "svn+ssh", s2l "sftp", s2l "nfs", s2l "git", s2l "git+ssh",
   s2l "ws", s2l "wss"]

/-- The schemes that allow relative resolution (`uses_relative`). -/
def usesRelative : List Str :=
  [s2l "", s2l "ftp", s2l "http", s2l "gopher", s2l "nntp", s2l "imap",
   s2l "wais", s2l "file", s2l "https", s2l "shttp", s2l "mms",
   s2l "prospero", s2l "rtsp", s2l "rtsps", s2l "rtspu", s2l "sftp",
   s2l "svn", s2l "svn+ssh", s2l "ws", s2l "wss"]

/-- CPython `_splitparams`: the parameters are everything after the first
`;` that follows the last `/` (or the first `;` when there is no `/`). -/
def splitparams (url : Str) : Str × Str :=
  match splitLast '/' url with
  | some (a, b) =>
    (match splitFirst ';' b with
     | some (c, d) => (a ++ '/' :: c, d)
     | none => (url, []))
  | none =>
    (match splitFirst ';' url with
     | some (c, d) => (c, d)
     | none => (url, []))

/-- CPython 3.11.6 `urlparse(url, scheme)` with `allow_fragments=True`. -/
def urlparse (url : Str) (defScheme : Str) : Option ParseResult :=
  (urlsplit url defScheme).map fun r =>
    if r.scheme ∈ usesParams ∧ ';' ∈ r.path then
      let p := splitparams r.path
      ⟨r.scheme, r.netloc, p.1, p.2, r.query, r.fragment⟩
    else ⟨r.scheme, r.netloc, r.path, [], r.query, r.fragment⟩

/-- CPython 3.11.6 `urlunsplit`. -/
def urlunsplit (scheme netloc url query fragment : Str) : Str :=
  let url1 :=
    if netloc ≠ [] ∨ (scheme ≠ [] ∧ scheme ∈ usesNetloc ∧ ¬ startsSlashSlash url) then
      let u := if url ≠ [] ∧ url.head? ≠ some '/' then '/' :: url else url
      '/' :: '/' :: (netloc ++ u)
    else url
  let url2 := if scheme ≠ [] then scheme ++ ':' :: url1 else url1
  let url3 := if query ≠ [] then url2 ++ '?' :: query else url2
  if fragment ≠ [] then url3 ++ '#' :: fragment else url3

/-- CPython 3.11.6 `urlunparse`, the function behind `ParseResult.geturl`. -/
def urlunparse (p : ParseResult) : Str :=
  let u := if p.params ≠ [] then p.path ++ ';' :: p.params else p.path
  urlunsplit p.scheme p.netloc u p.query p.fragment

/-- Splits a path on `/`, as Python `path.split('/')` (always nonempty). -/
def splitSlashes : Str → List Str
  | [] => [[]]
  | c :: rest =>
    if c = '/' then [] :: splitSlashes rest
    else
      match splitSlashes rest with
      | [] => [[c]]
      | a :: as => (c :: a) :: as

/-- Joins path segments with `/`, as Python `'/'.join(segs)`. -/
def joinSlashes : List Str → Str
  | [] => []
  | [a] => a
  | a :: b :: rest => a ++ '/' :: joinSlashes (b :: rest)

/-- Resolves `.` and `..` segments, as the segment loop of `urljoin`. -/
def resolveSegs (acc : List Str) : List Str → List Str
  | [] => acc
  | seg :: rest =>
    if seg = s2l ".." then resolveSegs acc.dropLast rest
    else if seg = s2l "." then resolveSegs acc rest
    else resolveSegs (acc ++ [seg]) rest

/-- CPython 3.11.6 `urljoin(base, url)`; `none` models a raised
`ValueError` from one of the two inner parses. -/
def urljoin (base url : Str) : Option Str :=
  if base = [] then some url
  else if url = [] then some base
  else
    match urlparse base [] with
    | none => none
    | some b =>
      match urlparse url b.scheme with
      | none => none
      | some p =>
        if p.scheme ≠ b.scheme ∨ p.scheme ∉ usesRelative then some url
        else if p.scheme ∈ usesNetloc ∧ p.netloc ≠ [] then
          some (urlunparse p)
        else
          let netloc := if p.scheme ∈ usesNetloc then b.netloc else p.netloc
          if p.path = [] ∧ p.params = [] then
            let query := if p.query = [] then b.query else p.query
            some (urlunparse ⟨p.scheme, netloc, b.path, b.params, query, p.fragment⟩)
          else
            let baseParts0 := splitSlashes b.path
            let baseParts :=
              if baseParts0.getLast? ≠ some [] then baseParts0.dropLast
              else baseParts0
            let segments :=
              if p.path.head? = some '/' then splitSlashes p.path
              else
                let segs := baseParts ++ splitSlashes p.path
                match segs with
                | [] => []
                | s0 :: srest =>
                  match srest.reverse with
                  | [] => [s0]
                  | slast :: smidrev =>
                    s0 :: ((smidrev.reverse.filter (fun s => s ≠ [])) ++ [slast])
            let resolved0 := resolveSegs [] segments
            let resolved :=
              if segments.getLast? = some (s2l ".") ∨ segments.getLast? = some (s2l "..")
              then resolved0 ++ [[]]
              else resolved0
            let joined := joinSlashes resolved
            let path := if joined = [] then ['/'] else joined
            some (urlunparse ⟨p.scheme, netloc, path, p.params, p.query, p.fragment⟩)

end UrlLib

namespace Crawler

open UrlLib

/-- Python `str.rstrip("/")`: removes every trailing slash. -/
def rstripSlash (l : Str) : Str :=
  (l.reverse.dropWhile fun c => c = '/').reverse

/-- Python `MultithreadCrawler.normalize_url`, translated line by line:
parse, drop the fragment, rebuild with `geturl`, and when the rebuilt
string ends in `/` while the parsed path is neither empty nor the root
path, remove every trailing `/` (`str.rstrip("/")`).  A parse error
returns the input unchanged. -/
def normalize_url (url : Str) : Str :=
  match urlparse url [] with
  | none => url
  | some p =>
    let noFrag : ParseResult := ⟨p.scheme, p.netloc, p.path, p.params, p.query, []⟩
    let norm := urlunparse noFrag
    if norm.getLast? = some '/' ∧ ¬ (p.path = [] ∨ p.path = ['/']) then rstripSlash norm
    else norm

/-- Python `MultithreadCrawler.make_name_from_url`: the authority plus the
path, with one trailing slash removed unless the name is exactly the
authority followed by `/`.  `urlparse` has no surrounding handler here,
so a parse error (modelled `none`) propagates and kills the worker. -/
def make_name_from_url (url : Str) : Option Str :=
  (urlparse url []).map fun p =>
    let name := p.netloc ++ p.path
    if name.getLast? = some '/' ∧ name ≠ p.netloc ++ ['/'] then name.dropLast
    else name

/-- Python `MultithreadCrawler.is_same_domain`: compares the parsed
authority with the crawl domain; a parse error yields `false`. -/
def is_same_domain (domain : Str) (url : Str) : Bool :=
  match urlparse url [] with
  | none => false
  | some p => p.netloc = domain

/-- Python whitespace as stripped by `str.strip()` (ASCII fragment). -/
def isPySpace (c : Char) : Bool :=
  (c = ' ' ∨ c = '\t' ∨ c = '\n' ∨ c = '\r' ∨ c = '\x0b' ∨ c = '\x0c')

/-- Python `str.strip()` on ASCII input. -/
def pyStrip (l : Str) : Str :=
  ((l.dropWhile isPySpace).reverse.dropWhile isPySpace).reverse

/-! ### The persistent store (`DataManager`)

Timestamps are modelled as naturals: `DataManager.add_or_update` stores
`datetime.now().isoformat()`, and ISO-8601 strings from one clock compare
chronologically, so the order structure is all that matters. -/

/-- One entry of `DataManager.data` as written by the crawler: the
`name`, `title`, `first_crawled` and `last_crawled` fields (the two
timestamps are `none` for records recovered from a legacy file). -/
structure PageRecord where
  name : Str
  title : Str
  first_crawled : Option Nat
  last_crawled : Option Nat
  deriving DecidableEq, Repr

/-- The store dictionary, keyed by page name. -/
abbrev Store := List (Str × PageRecord)

/-- Dictionary lookup, `self.data.get(name)`. -/
def findRec : Store → Str → Option PageRecord
  | [], _ => none
  | (k, r) :: rest, n => if k = n then some r else findRec rest n

/-- Python `DataManager.add_or_update(name, title)` at clock value `now`:
returns whether the name was new, and the updated store.  A new name
gets a fresh record with both timestamps set to `now`; an existing name
keeps its record but has `title` overwritten and `last_crawled` set to
`now` (its `name` and `first_crawled` fields are untouched). -/
def add_or_update (st : Store) (name title : Str) (now : Nat) : Bool × Store :=
  match findRec st name with
  | none => (true, st ++ [(name, ⟨name, title, some now, some now⟩)])
  | some _ =>
    (false,
      st.map fun p =>
        if p.1 = name then (p.1, ⟨p.2.name, title, p.2.first_crawled, some now⟩)
        else p)

/-! ### Loading persisted state (`DataManager._load_data`)

The JSON file contents are modelled as already-parsed Python values.
Numeric leaves carry a rational; no claim inspects numbers, only their
identity matters.  Python dict keys must be hashable, so assigning a
converted record under a list- or dict-valued key raises `TypeError`,
which `_load_data` does not catch; `Except.error` models that escape. -/

/-- A parsed JSON document as the Python value `json.load` returns. -/
inductive PyVal where
  | null
  | pbool (b : Bool)
  | pnum (q : ℚ)
  | pstr (s : Str)
  | plist (items : List PyVal)
  | pdict (fields : List (PyVal × PyVal))

/-- Equality of scalar dict keys.  Values reaching a dict key position
are hashable scalars (`_load_data` raises on the others before any
insertion), and the crawler's own keys are strings, where Python
equality coincides with structural equality; the model never has to
compare a container key.  Python's cross-type numeric equalities (such
as `True == 1`) are not reproduced; every theorem below uses string
keys, on which this comparison is exact. -/
def PyVal.keyEq : PyVal → PyVal → Bool
  | .null, .null => true
  | .pbool a, .pbool b => a = b
  | .pnum a, .pnum b => a = b
  | .pstr a, .pstr b => a = b
  | _, _ => false

/-- Whether a Python value is unhashable (cannot be a dict key). -/
def PyVal.unhashable : PyVal → Bool
  | .plist _ => true
  | .pdict _ => true
  | _ => false

/-- Dict assignment `d[k] = v`: replaces the value of an existing key in
place, otherwise appends the new binding. -/
def dictSet (d : List (PyVal × PyVal)) (k v : PyVal) : List (PyVal × PyVal) :=
  cond (d.any fun p => p.1.keyEq k)
    (d.map fun p => cond (p.1.keyEq k) (p.1, v) p)
    (d ++ [(k, v)])

/-- Dict lookup by key. -/
def dictFind : List (PyVal × PyVal) → PyVal → Option PyVal
  | [], _ => none
  | (k, v) :: rest, n => cond (k.keyEq n) (some v) (dictFind rest n)

/-- The record built for one legacy pair in `_load_data`. -/
def legacyRecord (k t : PyVal) : PyVal :=
  .pdict [(.pstr (s2l "name"), k), (.pstr (s2l "title"), t),
          (.pstr (s2l "first_crawled"), .null), (.pstr (s2l "last_crawled"), .null)]

/-- The conversion loop of `_load_data` for an old-format list: items that
are lists of length at least two are converted (later pairs overwrite
earlier ones with the same identity); other items are skipped.  An
unhashable identity raises `TypeError`, which escapes the function. -/
def convertLegacy : List PyVal → List (PyVal × PyVal) → Except Unit (List (PyVal × PyVal))
  | [], acc => .ok acc
  | item :: rest, acc =>
    match item with
    | .plist (k :: t :: _) =>
      if k.unhashable then .error ()
      else convertLegacy rest (dictSet acc k (legacyRecord k t))
    | _ => convertLegacy rest acc

/-- The possible states of the persisted file as seen by `_load_data`. -/
inductive LoadSource where
  | missing
  | ioError
  | badJson
  | parsed (v : PyVal)

/-- Python `DataManager._load_data`: a missing file and caught read or
decode errors give an empty store; an old-format list is converted; any
other parsed value is returned as is.  `Except.error` models the
uncaught `TypeError` on an unhashable legacy identity. -/
def load_data : LoadSource → Except Unit PyVal
  | .missing => .ok (.pdict [])
  | .ioError => .ok (.pdict [])
  | .badJson => .ok (.pdict [])
  | .parsed v =>
    match v with
    | .plist items => (convertLegacy items []).map PyVal.pdict
    | _ => .ok v

/-! ### The page extractor (`extract_title_and_links`)

BeautifulSoup is the external HTML-parsing collaborator; its output is
modelled at the DOM level: the first `title` tag (with its `.string`,
which is `None` when the tag does not contain exactly one text node) and
the anchors that carry an `href` attribute, in document order.  A parse
failure raised by the collaborator is the `failed` case. -/

/-- The first `title` element as BeautifulSoup reports it. -/
structure TitleTag where
  string : Option Str
  deriving DecidableEq

/-- One anchor with an `href` attribute (`find_all("a", href=True)`). -/
structure Anchor where
  href : Str
  deriving DecidableEq

/-- The parsed page: optional title tag and anchors in document order. -/
structure PageDom where
  title : Option TitleTag
  anchors : List Anchor
  deriving DecidableEq

/-- Outcome of handing the raw HTML to the parsing collaborator. -/
inductive ParsedHtml where
  | failed
  | dom (d : PageDom)
  deriving DecidableEq

/-- The link loop of `extract_title_and_links`: each href is stripped,
empty ones are skipped, the rest are resolved against the base URL,
filtered to the crawl domain and normalized.  A `ValueError` escaping
`urljoin` aborts the loop (it is caught by the surrounding handler). -/
def linkLoop (domain base : Str) : List Anchor → Except Unit (List Str)
  | [] => .ok []
  | a :: rest =>
    let href := pyStrip a.href
    if href = [] then linkLoop domain base rest
    else
      match urljoin base href with
      | none => .error ()
      | some absolute =>
        match linkLoop domain base rest with
        | .error e => .error e
        | .ok ls =>
          .ok (if is_same_domain domain absolute then normalize_url absolute :: ls else ls)

/-- Python `extract_title_and_links(base_url, html)` over the DOM model:
the title is the stripped `.string` of the title tag when that string is
present and nonempty, else the sentinel; the links come from `linkLoop`.
Any exception (a parser failure, or a `ValueError` escaping the loop)
yields the sentinel title and no links. -/
def extract_title_and_links (domain base_url : Str) (h : ParsedHtml) : Str × List Str :=
  match h with
  | .failed => (s2l "No Title", [])
  | .dom d =>
    let title :=
      match d.title with
      | some tt =>
        match tt.string with
        | some s => if s ≠ [] then pyStrip s else s2l "No Title"
        | none => s2l "No Title"
      | none => s2l "No Title"
    match linkLoop domain base_url d.anchors with
    | .error _ => (s2l "No Title", [])
    | .ok links => (title, links)

end Crawler


namespace Crawler

open UrlLib

/-! ### The worker pool (`MultithreadCrawler.worker` / `crawl`)

The crawl is a labelled transition system.  Shared state holds the five
structures mutated under `self.lock`; each lock-protected critical
section of `worker` is one atomic step, and the lock-free fetch and
extraction happen between steps.  The network and the HTML parser are
oracles supplied as parameters (`fetchO` returns the page, `extractO`
is what `extract_title_and_links` computes on it), so the theorems hold
for every network behaviour.  The store clock is a fresh parameter of
every store step, so timestamps are arbitrary.  An exception escaping
`make_name_from_url` ends that worker, as `crawl` catches worker
exceptions at the thread boundary. -/

/-- The crawl parameters: seed, budget, oracles and initial store. -/
structure Params (H : Type) where
  start_url : Str
  max_pages : Nat
  fetchO : Str → Option H
  extractO : Str → H → Str × List Str
  store0 : Store

/-- The shared state guarded by `self.lock`. -/
structure Shared where
  to_visit : List Str
  to_visit_set : Finset Str
  visited : Finset Str
  processed_names : Finset Str
  store : Store

/-- The control point of one worker between critical sections. -/
inductive WState where
  | atLoop
  | inflight (url norm : Str)
  | storing (name title : Str) (links : List Str)
  | enqueuing (links : List Str)
  | halted
  deriving DecidableEq, Repr

/-- Observable events of one worker step. -/
inductive Label where
  | exit
  | skipPop (url : Str)
  | take (url norm : Str)
  | fetchFail (url : Str)
  | fetchOk (url : Str)
  | nameCrash (url : Str)
  | upsert (name : Str)
  | storeDup (name : Str)
  | enq (links : List Str)
  deriving DecidableEq, Repr

/-- The whole system: shared state plus the workers. -/
structure Sys where
  sh : Shared
  ws : List WState

/-- The link-enqueueing loop of `worker` (third critical section): a link
already visited or queued is skipped; once the budget
`len(visited) + len(to_visit) >= max_pages` is reached the loop breaks;
otherwise the link joins the queue and the queued set. -/
def enqLoop (vis : Finset Str) (maxp : Nat) :
    List Str → List Str → Finset Str → List Str × Finset Str
  | [], q, s => (q, s)
  | l :: rest, q, s =>
    if l ∈ vis ∨ l ∈ s then enqLoop vis maxp rest q s
    else if maxp ≤ vis.card + q.length then (q, s)
    else enqLoop vis maxp rest (q ++ [l]) (insert l s)

/-- One atomic step of the system: worker `i` executes the next piece of
its loop.  The first critical section either exits (queue empty or
budget reached), skips an already-visited pop, or takes the popped URL
and marks it visited before the lock is released; fetching and
extraction happen off-lock; the second critical section consults
`processed_names` before touching the store; the third enqueues the
discovered links. -/
inductive Step (H : Type) (P : Params H) : Sys → Label → Sys → Prop where
  | exit (s : Sys) (i : Nat) :
      s.ws.get? i = some .atLoop →
      (s.sh.to_visit = [] ∨ P.max_pages ≤ s.sh.visited.card) →
      Step H P s .exit ⟨s.sh, s.ws.set i .halted⟩
  | skip (s : Sys) (i : Nat) (url : Str) (rest : List Str) :
      s.ws.get? i = some .atLoop →
      s.sh.to_visit = url :: rest →
      s.sh.visited.card < P.max_pages →
      normalize_url url ∈ s.sh.visited →
      Step H P s (.skipPop url)
        ⟨{ s.sh with
            to_visit := rest,
            to_visit_set := s.sh.to_visit_set.erase (normalize_url url) },
          s.ws⟩
  | take (s : Sys) (i : Nat) (url : Str) (rest : List Str) :
      s.ws.get? i = some .atLoop →
      s.sh.to_visit = url :: rest →
      s.sh.visited.card < P.max_pages →
      normalize_url url ∉ s.sh.visited →
      Step H P s (.take url (normalize_url url))
        ⟨{ s.sh with
            to_visit := rest,
            to_visit_set := s.sh.to_visit_set.erase (normalize_url url),
            visited := insert (normalize_url url) s.sh.visited },
          s.ws.set i (.inflight url (normalize_url url))⟩
  | fetchFail (s : Sys) (i : Nat) (url norm : Str) :
      s.ws.get? i = some (.inflight url norm) →
      P.fetchO url = none →
      Step H P s (.fetchFail url) ⟨s.sh, s.ws.set i .atLoop⟩
  | fetchOk (s : Sys) (i : Nat) (url norm name : Str) (h : H) :
      s.ws.get? i = some (.inflight url norm) →
      P.fetchO url = some h →
      make_name_from_url url = some name →
      Step H P s (.fetchOk url)
        ⟨s.sh, s.ws.set i (.storing name (P.extractO url h).1 (P.extractO url h).2)⟩
  | nameCrash (s : Sys) (i : Nat) (url norm : Str) (h : H) :
      s.ws.get? i = some (.inflight url norm) →
      P.fetchO url = some h →
      make_name_from_url url = none →
      Step H P s (.nameCrash url) ⟨s.sh, s.ws.set i .halted⟩
  | storeNew (s : Sys) (i : Nat) (name title : Str) (links : List Str) (t : Nat) :
      s.ws.get? i = some (.storing name title links) →
      name ∉ s.sh.processed_names →
      Step H P s (.upsert name)
        ⟨{ s.sh with
            processed_names := insert name s.sh.processed_names,
            store := (add_or_update s.sh.store name title t).2 },
          s.ws.set i (.enqueuing links)⟩
  | storeDup (s : Sys) (i : Nat) (name title : Str) (links : List Str) :
      s.ws.get? i = some (.storing name title links) →
      name ∈ s.sh.processed_names →
      Step H P s (.storeDup name) ⟨s.sh, s.ws.set i (.enqueuing links)⟩
  | enq (s : Sys) (i : Nat) (links : List Str) :
      s.ws.get? i = some (.enqueuing links) →
      Step H P s (.enq links)
        ⟨{ s.sh with
            to_visit := (enqLoop s.sh.visited P.max_pages links s.sh.to_visit s.sh.to_visit_set).1,
            to_visit_set := (enqLoop s.sh.visited P.max_pages links s.sh.to_visit s.sh.to_visit_set).2 },
          s.ws.set i .atLoop⟩

/-- The crawl's initial state with `w` workers: the queue holds the raw
seed, the queued set its normalized key, everything else is as
`MultithreadCrawler.__init__` leaves it. -/
def initSys (H : Type) (P : Params H) (w : Nat) : Sys :=
  ⟨⟨[P.start_url], {normalize_url P.start_url}, ∅, ∅, P.store0⟩,
    List.replicate w .atLoop⟩

/-- Executions: `Reach P s tr s2` means the system runs from `s` to `s2`
emitting the trace `tr`. -/
inductive Reach (H : Type) (P : Params H) : Sys → List Label → Sys → Prop where
  | refl (s : Sys) : Reach H P s [] s
  | tail (s s1 s2 : Sys) (tr : List Label) (l : Label) :
      Reach H P s tr s1 → Step H P s1 l s2 → Reach H P s (tr ++ [l]) s2

/-- Whether a label is a genuine take of normalized key `k`. -/
def isTakeOf (k : Str) : Label → Bool
  | .take _ n => n = k
  | _ => false

/-- Whether a label is a genuine take that popped the raw URL `u`. -/
def isTakeUrl (u : Str) : Label → Bool
  | .take url _ => url = u
  | _ => false

/-- Whether a label records a network fetch of `u` (any outcome). -/
def isFetchOf (u : Str) : Label → Bool
  | .fetchFail url => url = u
  | .fetchOk url => url = u
  | .nameCrash url => url = u
  | _ => false

/-- Whether a label is a store upsert of `n`. -/
def isUpsertOf (n : Str) : Label → Bool
  | .upsert name => name = n
  | _ => false

end Crawler

namespace Crawler

open UrlLib

/-! ### Store lemmas and the upsert contract -/

/-- Appending a fresh binding makes it findable. -/
theorem findRec_append_fresh (st : Store) (name : Str) (r : PageRecord)
    (h : findRec st name = none) : findRec (st ++ [(name, r)]) name = some r := by
  induction st with
  | nil => simp [findRec]
  | cons p rest ih =>
    by_cases hk : p.1 = name
    · exfalso
      simp [findRec, hk] at h
    · simp [findRec, hk] at h ⊢
      exact ih h

/-- Updating every binding of a key rewrites the first one that
`findRec` returns. -/
theorem findRec_map_update (st : Store) (name : Str) (r : PageRecord)
    (g : PageRecord → PageRecord) (h : findRec st name = some r) :
    findRec (st.map fun p => if p.1 = name then (p.1, g p.2) else p) name = some (g r) := by
  induction st with
  | nil => simp [findRec] at h
  | cons p rest ih =>
    obtain ⟨k, v⟩ := p
    by_cases hk : k = name
    · subst hk
      simp only [findRec, if_pos rfl] at h
      cases h
      dsimp only [List.map_cons]
      rw [if_pos rfl]
      simp [findRec]
    · simp only [findRec, if_neg hk] at h
      dsimp only [List.map_cons]
      rw [if_neg hk]
      simp only [findRec]
      rw [if_neg hk]
      exact ih h

/-- C3: `add_or_update` creates `⟨name, title, now, now⟩` and returns
`true` when the identity is absent; when present it returns `false`,
overwrites the title, sets `last_crawled` to `now` and leaves
`first_crawled` (and `name`) untouched.  Hence upserting twice with the
same title preserves `first_crawled`, drives `last_crawled` through
`t1 ≤ t2` (monotonically non-decreasing for a monotone clock), and any
record whose stored first-seen time does not exceed the clock — in
particular any record the upsert itself created — satisfies
`first_crawled ≤ last_crawled` afterwards. -/
theorem add_or_update_contract :
    (∀ st name title now, findRec st name = none →
      (add_or_update st name title now).1 = true ∧
      findRec (add_or_update st name title now).2 name =
        some ⟨name, title, some now, some now⟩) ∧
    (∀ st name title now r, findRec st name = some r →
      (add_or_update st name title now).1 = false ∧
      findRec (add_or_update st name title now).2 name =
        some ⟨r.name, title, r.first_crawled, some now⟩) ∧
    (∀ st name title t1 t2, t1 ≤ t2 → ∃ r1 r2,
      findRec (add_or_update st name title t1).2 name = some r1 ∧
      findRec (add_or_update (add_or_update st name title t1).2 name title t2).2 name
        = some r2 ∧
      r2.first_crawled = r1.first_crawled ∧
      r1.last_crawled = some t1 ∧ r2.last_crawled = some t2 ∧
      (∀ l1 l2, r1.last_crawled = some l1 → r2.last_crawled = some l2 → l1 ≤ l2)) ∧
    (∀ st name title now,
      (∀ r f, findRec st name = some r → r.first_crawled = some f → f ≤ now) →
      ∀ r2, findRec (add_or_update st name title now).2 name = some r2 →
        ∃ l, r2.last_crawled = some l ∧ ∀ f, r2.first_crawled = some f → f ≤ l) := by
  have hnew : ∀ st name title now, findRec st name = none →
      (add_or_update st name title now).1 = true ∧
      findRec (add_or_update st name title now).2 name =
        some ⟨name, title, some now, some now⟩ := by
    intro st name title now h
    simp only [add_or_update, h]
    exact ⟨trivial, findRec_append_fresh st name _ h⟩
  have hupd : ∀ st name title now r, findRec st name = some r →
      (add_or_update st name title now).1 = false ∧
      findRec (add_or_update st name title now).2 name =
        some ⟨r.name, title, r.first_crawled, some now⟩ := by
    intro st name title now r h
    simp only [add_or_update, h]
    exact ⟨trivial, findRec_map_update st name r
      (fun v => ⟨v.name, title, v.first_crawled, some now⟩) h⟩
  refine ⟨hnew, hupd, ?_, ?_⟩
  · intro st name title t1 t2 ht
    cases h : findRec st name with
    | none =>
      obtain ⟨-, h1⟩ := hnew st name title t1 h
      obtain ⟨-, h2⟩ := hupd _ name title t2 _ h1
      exact ⟨_, _, h1, h2, rfl, rfl, rfl, by
        intro l1 l2 e1 e2
        cases e1; cases e2; exact ht⟩
    | some r =>
      obtain ⟨-, h1⟩ := hupd st name title t1 r h
      obtain ⟨-, h2⟩ := hupd _ name title t2 _ h1
      exact ⟨_, _, h1, h2, rfl, rfl, rfl, by
        intro l1 l2 e1 e2
        cases e1; cases e2; exact ht⟩
  · intro st name title now hstore r2 hfind
    cases h : findRec st name with
    | none =>
      obtain ⟨-, h1⟩ := hnew st name title now h
      rw [h1] at hfind
      cases hfind
      exact ⟨now, rfl, by intro f hf; cases hf; exact le_refl now⟩
    | some r =>
      obtain ⟨-, h1⟩ := hupd st name title now r h
      rw [h1] at hfind
      cases hfind
      exact ⟨now, rfl, by intro f hf; exact hstore r f h hf⟩

/-- Witness for the upsert contract at a concrete store and clock. -/
theorem add_or_update_contract_witness :
    (add_or_update [] (s2l "a") (s2l "t") 3).1 = true ∧
    findRec (add_or_update [] (s2l "a") (s2l "t") 3).2 (s2l "a") =
      some ⟨s2l "a", s2l "t", some 3, some 3⟩ := by
  exact add_or_update_contract.1 [] (s2l "a") (s2l "t") 3 rfl

/-! ### Legacy-load lemmas (`_load_data`) -/

/-- A key that compares equal to a string key is that string key. -/
theorem keyEq_pstr_right (x : PyVal) (s : Str) (h : x.keyEq (.pstr s) = true) :
    x = .pstr s := by
  cases x <;> simp [PyVal.keyEq] at h
  simp [h]

/-- Lookup distributes over dict append. -/
theorem dictFind_append (a b : List (PyVal × PyVal)) (key : PyVal) :
    dictFind (a ++ b) key =
      match dictFind a key with
      | some v => some v
      | none => dictFind b key := by
  induction a with
  | nil => simp [dictFind]
  | cons p rest ih =>
    obtain ⟨k, v⟩ := p
    cases hk : k.keyEq key <;> simp [dictFind, hk, ih]

/-- A positive `any` scan under `keyEq` produces a found binding. -/
theorem dictFind_of_any (acc : List (PyVal × PyVal)) (s : Str)
    (h : acc.any (fun p => p.1.keyEq (.pstr s)) = true) :
    ∃ w, dictFind acc (.pstr s) = some w := by
  induction acc with
  | nil => simp at h
  | cons p rest ih =>
    obtain ⟨k, v⟩ := p
    cases hk : k.keyEq (.pstr s) with
    | true => exact ⟨v, by simp [dictFind, hk]⟩
    | false =>
      simp only [List.any_cons, hk, Bool.false_or] at h
      obtain ⟨w, hw⟩ := ih h
      exact ⟨w, by simp [dictFind, hk, hw]⟩

/-- A found binding makes the `any` scan positive. -/
theorem any_of_dictFind (acc : List (PyVal × PyVal)) (s : Str) (w : PyVal)
    (h : dictFind acc (.pstr s) = some w) :
    acc.any (fun p => p.1.keyEq (.pstr s)) = true := by
  induction acc with
  | nil => simp [dictFind] at h
  | cons p rest ih =>
    obtain ⟨k, v⟩ := p
    cases hk : k.keyEq (.pstr s) with
    | true => simp [hk]
    | false =>
      simp only [dictFind, hk, cond_false] at h
      simp [hk, ih h]

/-- In-place reassignment of every binding matching a string key. -/
theorem dictFind_mapAssign (acc : List (PyVal × PyVal)) (sk : Str) (v : PyVal) (s : Str) :
    dictFind (acc.map fun p => cond (p.1.keyEq (.pstr sk)) (p.1, v) p) (.pstr s) =
      if sk = s then (dictFind acc (.pstr s)).map (fun _ => v)
      else dictFind acc (.pstr s) := by
  induction acc with
  | nil => simp [dictFind]
  | cons p rest ih =>
    obtain ⟨k, v0⟩ := p
    cases hk : k.keyEq (.pstr sk) with
    | true =>
      have hkk := keyEq_pstr_right k sk hk
      subst hkk
      by_cases hs : sk = s
      · subst hs
        simp [dictFind, PyVal.keyEq, ih]
      · have h2 : PyVal.keyEq (.pstr sk) (.pstr s) = false := by
          simp [PyVal.keyEq, hs]
        simp [dictFind, hk, h2, ih, hs]
    | false =>
      cases hks : k.keyEq (.pstr s) with
      | true =>
        have hkk := keyEq_pstr_right k s hks
        subst hkk
        have hs : ¬ sk = s := by
          intro hc
          subst hc
          simp [PyVal.keyEq] at hk
        simp [dictFind, hk, hks, hs]
      | false => simp [dictFind, hk, hks, ih]

/-- Dict assignment under a string key: the assigned value is found under
that key, other string keys are unaffected. -/
theorem dictFind_dictSet (acc : List (PyVal × PyVal)) (sk : Str) (v : PyVal) (s : Str) :
    dictFind (dictSet acc (.pstr sk) v) (.pstr s) =
      if sk = s then some v else dictFind acc (.pstr s) := by
  unfold dictSet
  cases hany : acc.any (fun p => p.1.keyEq (.pstr sk)) with
  | true =>
    simp only [cond_true]
    rw [dictFind_mapAssign]
    by_cases hs : sk = s
    · subst hs
      obtain ⟨w, hw⟩ := dictFind_of_any acc sk hany
      simp [hw]
    · simp [hs]
  | false =>
    simp only [cond_false]
    rw [dictFind_append]
    have hnone : dictFind acc (.pstr sk) = none := by
      cases hfind : dictFind acc (.pstr sk) with
      | none => rfl
      | some w =>
        rw [any_of_dictFind acc sk w hfind] at hany
        cases hany
    by_cases hs : sk = s
    · subst hs
      rw [hnone]
      simp [dictFind, PyVal.keyEq]
    · have h2 : PyVal.keyEq (.pstr sk) (.pstr s) = false := by
        simp [PyVal.keyEq, hs]
      cases hfind : dictFind acc (.pstr s) with
      | none => simp [dictFind, h2, hfind, hs]
      | some w => simp [hfind, hs]

/-- The title of the last legacy pair carrying the given identity
(later pairs win, mirroring repeated dict assignment). -/
def lastTitle (key : PyVal) : List PyVal → Option PyVal
  | [] => none
  | item :: rest =>
    match lastTitle key rest with
    | some t => some t
    | none =>
      match item with
      | .plist (k :: t :: _) => cond (k.keyEq key) (some t) none
      | _ => none

/-- The conversion loop: with string identities it succeeds, and lookup
in the result is the last matching pair (falling back to the running
accumulator). -/
theorem convertLegacy_ok (items : List PyVal)
    (hstr : ∀ k t rest2, PyVal.plist (k :: t :: rest2) ∈ items → ∃ s0, k = .pstr s0) :
    ∀ acc, ∃ d, convertLegacy items acc = .ok d ∧
      ∀ s, dictFind d (.pstr s) =
        match lastTitle (.pstr s) items with
        | some t => some (legacyRecord (.pstr s) t)
        | none => dictFind acc (.pstr s) := by
  induction items with
  | nil =>
    intro acc
    exact ⟨acc, rfl, by intro s; simp [lastTitle]⟩
  | cons item rest ih =>
    intro acc
    have hstrRest : ∀ k t rest2, PyVal.plist (k :: t :: rest2) ∈ rest → ∃ s0, k = .pstr s0 := by
      intro k t rest2 hmem
      exact hstr k t rest2 (List.mem_cons_of_mem _ hmem)
    match hitem : item with
    | .plist (k :: t :: tl) =>
      obtain ⟨s0, hk⟩ := hstr k t tl (List.mem_cons_self _ _)
      subst hk
      obtain ⟨d, hd, hfind⟩ := ih hstrRest (dictSet acc (.pstr s0) (legacyRecord (.pstr s0) t))
      refine ⟨d, by simpa [convertLegacy, PyVal.unhashable] using hd, ?_⟩
      intro s
      rw [hfind s]
      cases hlast : lastTitle (.pstr s) rest with
      | some t2 => simp [lastTitle, hlast]
      | none =>
        rw [dictFind_dictSet]
        by_cases hs : s0 = s
        · subst hs
          simp [lastTitle, hlast, PyVal.keyEq]
        · have h2 : PyVal.keyEq (.pstr s0) (.pstr s) = false := by
            simp [PyVal.keyEq, hs]
          simp [lastTitle, hlast, h2, hs]
    | .null =>
      obtain ⟨d, hd, hfind⟩ := ih hstrRest acc
      refine ⟨d, hd, ?_⟩
      intro s
      rw [hfind s]
      simp only [lastTitle]
      cases lastTitle (.pstr s) rest <;> rfl
    | .pbool b =>
      obtain ⟨d, hd, hfind⟩ := ih hstrRest acc
      refine ⟨d, hd, ?_⟩
      intro s
      rw [hfind s]
      simp only [lastTitle]
      cases lastTitle (.pstr s) rest <;> rfl
    | .pnum q =>
      obtain ⟨d, hd, hfind⟩ := ih hstrRest acc
      refine ⟨d, hd, ?_⟩
      intro s
      rw [hfind s]
      simp only [lastTitle]
      cases lastTitle (.pstr s) rest <;> rfl
    | .pstr s1 =>
      obtain ⟨d, hd, hfind⟩ := ih hstrRest acc
      refine ⟨d, hd, ?_⟩
      intro s
      rw [hfind s]
      simp only [lastTitle]
      cases lastTitle (.pstr s) rest <;> rfl
    | .plist [] =>
      obtain ⟨d, hd, hfind⟩ := ih hstrRest acc
      refine ⟨d, hd, ?_⟩
      intro s
      rw [hfind s]
      simp only [lastTitle]
      cases lastTitle (.pstr s) rest <;> rfl
    | .plist [k] =>
      obtain ⟨d, hd, hfind⟩ := ih hstrRest acc
      refine ⟨d, hd, ?_⟩
      intro s
      rw [hfind s]
      simp only [lastTitle]
      cases lastTitle (.pstr s) rest <;> rfl
    | .pdict f =>
      obtain ⟨d, hd, hfind⟩ := ih hstrRest acc
      refine ⟨d, hd, ?_⟩
      intro s
      rw [hfind s]
      simp only [lastTitle]
      cases lastTitle (.pstr s) rest <;> rfl

/-- C8 counterexample: the claim fails as stated.  First, a legacy list
of two pairs sharing the identity `"a"` loads into a single record (not
one record per pair) whose title is the second pair's `"2"` (the first
pair's title is not preserved).  Second, load is not failure-free: a
legacy pair whose identity is itself a list raises an uncaught
`TypeError` (an unhashable dict key), so the load fails instead of
degrading to an empty store. -/
theorem load_data_counterexample :
    (∃ d, load_data (.parsed (.plist
        [.plist [.pstr (s2l "a"), .pstr (s2l "1")],
         .plist [.pstr (s2l "a"), .pstr (s2l "2")]])) = .ok (.pdict d) ∧
      d.length = 1 ∧
      dictFind d (.pstr (s2l "a")) =
        some (legacyRecord (.pstr (s2l "a")) (.pstr (s2l "2")))) ∧
    load_data (.parsed (.plist [.plist [.plist [.pstr (s2l "x")], .pstr (s2l "y")]]))
      = .error () := by
  exact ⟨⟨_, rfl, rfl, rfl⟩, rfl⟩

/-- C8 amended: a missing, unreadable or corrupt state file loads as the
empty store, and a legacy list-of-pairs whose items of length at least
two carry string identities loads without failing into one record per
distinct identity: the record under each identity comes from the last
pair carrying it, with that pair's title and null timestamps.  (The
claim's strict reading fails when identities repeat, when a pair's
title differs between occurrences, or when an identity is an unhashable
container value; see the counterexample.) -/
theorem load_data_amended :
    load_data .missing = .ok (.pdict []) ∧
    load_data .ioError = .ok (.pdict []) ∧
    load_data .badJson = .ok (.pdict []) ∧
    ∀ items,
      (∀ k t rest2, PyVal.plist (k :: t :: rest2) ∈ items → ∃ s0, k = .pstr s0) →
      ∃ d, load_data (.parsed (.plist items)) = .ok (.pdict d) ∧
        ∀ s, dictFind d (.pstr s) =
          (lastTitle (.pstr s) items).map (fun t => legacyRecord (.pstr s) t) := by
  refine ⟨rfl, rfl, rfl, ?_⟩
  intro items hstr
  obtain ⟨d, hd, hfind⟩ := convertLegacy_ok items hstr []
  refine ⟨d, by simp only [load_data, hd]; rfl, ?_⟩
  intro s
  rw [hfind s]
  cases lastTitle (.pstr s) items <;> simp [dictFind]

/-- Witness for the amended load theorem on the legacy round-trip input
of the specification. -/
theorem load_data_amended_witness :
    ∃ d, load_data (.parsed (.plist
        [.plist [.pstr (s2l "a/path"), .pstr (s2l "Title A")],
         .plist [.pstr (s2l "b"), .pstr (s2l "Title B")]])) = .ok (.pdict d) ∧
      ∀ s, dictFind d (.pstr s) =
        (lastTitle (.pstr s)
            [.plist [.pstr (s2l "a/path"), .pstr (s2l "Title A")],
             .plist [.pstr (s2l "b"), .pstr (s2l "Title B")]]).map
          (fun t => legacyRecord (.pstr s) t) := by
  refine load_data_amended.2.2.2 _ ?_
  intro k t rest2 hmem
  simp only [List.mem_cons, List.not_mem_nil, or_false] at hmem
  rcases hmem with h | h <;> cases h
  · exact ⟨s2l "a/path", rfl⟩
  · exact ⟨s2l "b", rfl⟩

/-! ### The extractor contract -/

/-- The link list exactly as claimed: every anchor's href resolved
against the base URL, filtered to the crawl domain, each normalized —
with no trimming and no skipping of empty hrefs. -/
def extract_links_claim (domain base : Str) (anchors : List Anchor) : List Str :=
  ((anchors.filterMap fun a => urljoin base a.href).filter
    (fun u => is_same_domain domain u)).map normalize_url

/-- Resolves every href against the base URL, failing if any single
resolution raises. -/
def resolveAll (base : Str) : List Str → Option (List Str)
  | [] => some []
  | h :: t =>
    match urljoin base h with
    | none => none
    | some ab => (resolveAll base t).map (fun l => ab :: l)

/-- The extractor as the amended claim describes it: the title rule is
unchanged; each href is trimmed first and anchors whose trimmed href is
empty are skipped; the surviving hrefs are resolved, filtered to the
crawl domain and normalized; a parse failure — or a resolution error on
any surviving href — degrades to the sentinel title and no links. -/
def extract_spec (domain base : Str) : ParsedHtml → Str × List Str
  | .failed => (s2l "No Title", [])
  | .dom d =>
    let title :=
      match d.title with
      | some tt =>
        match tt.string with
        | some s => if s ≠ [] then pyStrip s else s2l "No Title"
        | none => s2l "No Title"
      | none => s2l "No Title"
    let hrefs := (d.anchors.map fun a => pyStrip a.href).filter (fun x => x ≠ [])
    match resolveAll base hrefs with
    | none => (s2l "No Title", [])
    | some abs =>
      (title, ((abs.filter fun u => is_same_domain domain u).map normalize_url))

/-- C7 counterexample: on a page whose only anchor has an empty href,
the code returns no links — the anchor is skipped — while the claimed
link list resolves the empty href to the base URL itself and keeps it
(same domain, already normalized).  So extract does not return "exactly
the anchors' hrefs resolved, filtered and normalized". -/
theorem extract_counterexample :
    (extract_title_and_links (s2l "example.com") (s2l "https://example.com/")
        (.dom ⟨none, [⟨[]⟩]⟩)).2 = [] ∧
    extract_links_claim (s2l "example.com") (s2l "https://example.com/") [⟨[]⟩] =
      [s2l "https://example.com/"] := by
  exact ⟨rfl, rfl⟩

/-- The escape-on-error link loop computes the trim-skip-resolve-filter-
normalize pipeline of the amended claim. -/
theorem linkLoop_eq_pipeline (domain base : Str) (ans : List Anchor) :
    linkLoop domain base ans =
      match resolveAll base ((ans.map fun a => pyStrip a.href).filter (fun x => x ≠ [])) with
      | none => .error ()
      | some abs =>
        .ok (((abs.filter fun u => is_same_domain domain u).map normalize_url)) := by
  induction ans with
  | nil => rfl
  | cons a rest ih =>
    by_cases hh : pyStrip a.href = []
    · simp only [linkLoop, hh, if_pos rfl, List.map_cons, List.filter_cons]
      simp only [hh, decide_not, decide_True, Bool.not_true]
      simpa using ih
    · simp only [linkLoop, if_neg hh, List.map_cons, List.filter_cons]
      have hcond : (decide (pyStrip a.href ≠ [])) = true := by simpa using hh
      rw [hcond]
      simp only [if_pos trivial, resolveAll]
      cases hj : urljoin base (pyStrip a.href) with
      | none => simp
      | some ab =>
        rw [ih]
        cases hm : resolveAll base
            ((rest.map fun a => pyStrip a.href).filter (fun x => x ≠ [])) with
        | none => simp
        | some abs =>
          simp only [Option.map_some, List.filter_cons]
          cases hd : is_same_domain domain ab <;> simp [hd]

/-- C7 amended: for every crawl domain, base URL and parsed page, the
extractor returns exactly what the amended contract describes: the
trimmed title (sentinel when the tag or its string content is missing
or the string is empty), and the trimmed nonempty hrefs resolved
against the base, filtered to the crawl domain and normalized, with
parse or resolution failures degrading to the sentinel and no links. -/
theorem extract_matches_spec (domain base : Str) (h : ParsedHtml) :
    extract_title_and_links domain base h = extract_spec domain base h := by
  cases h with
  | failed => rfl
  | dom d =>
    simp only [extract_title_and_links, extract_spec]
    rw [linkLoop_eq_pipeline]
    cases hm : resolveAll base
        ((d.anchors.map fun a => pyStrip a.href).filter (fun x => x ≠ [])) with
    | none => simp
    | some abs => simp

/-! ### The normalizer contract -/

/-- The normalizer exactly as claimed: remove the fragment, then strip
exactly ONE trailing slash unless the remaining path is empty or the
root path; malformed input is returned unchanged. -/
def normalize_claim (url : Str) : Str :=
  match urlparse url [] with
  | none => url
  | some p =>
    let noFrag : ParseResult := ⟨p.scheme, p.netloc, p.path, p.params, p.query, []⟩
    let norm := urlunparse noFrag
    if norm.getLast? = some '/' ∧ ¬ (p.path = [] ∨ p.path = ['/']) then norm.dropLast
    else norm

/-- C5 counterexample: on `http://e.com/a//` the code strips BOTH
trailing slashes (`str.rstrip("/")` removes every one), while the claim
says exactly one is stripped, which would leave `http://e.com/a/`. -/
theorem normalize_one_slash_counterexample :
    normalize_url (s2l "http://e.com/a//") = s2l "http://e.com/a" ∧
    normalize_claim (s2l "http://e.com/a//") = s2l "http://e.com/a/" ∧
    normalize_url (s2l "http://e.com/a//") ≠
      normalize_claim (s2l "http://e.com/a//") := by
  exact ⟨rfl, rfl, by decide⟩

/-- C6 counterexample: `normalize(normalize(u)) = normalize(u)` fails on
three families of URLs.  A query of slashes: `http://e.com/a?/` first
becomes `http://e.com/a?` (the strip eats into the query), and the
dangling empty query is dropped by the next pass.  A path ending in a
semicolon after stripping: `http://e.com/x/a;/` first becomes
`http://e.com/x/a;`, and the next pass splits the now-final `;` as an
empty parameter section and drops it.  An empty authority:
`http://///` first collapses to `http:`, and the next pass restores
`//` for a scheme that uses a network location, yielding `http://`. -/
theorem normalize_not_idempotent :
    normalize_url (normalize_url (s2l "http://e.com/a?/")) ≠
      normalize_url (s2l "http://e.com/a?/") ∧
    normalize_url (normalize_url (s2l "http://e.com/x/a;/")) ≠
      normalize_url (s2l "http://e.com/x/a;/") ∧
    normalize_url (normalize_url (s2l "http://///")) ≠
      normalize_url (s2l "http://///") := by
  exact ⟨by decide, by decide, by decide⟩

namespace UrlLib

/-! ### Structural lemmas about the splitting helpers -/

/-- A successful first-split decomposes the list around the separator. -/
theorem splitFirst_shape (c : Char) (l a b : Str) (h : splitFirst c l = some (a, b)) :
    l = a ++ c :: b ∧ c ∉ a := by
  induction l generalizing a with
  | nil => simp [splitFirst] at h
  | cons x xs ih =>
    by_cases hx : x = c
    · subst hx
      simp [splitFirst] at h
      obtain ⟨ha, hb⟩ := h
      subst ha; subst hb
      simp
    · simp only [splitFirst, if_neg hx] at h
      cases hs : splitFirst c xs with
      | none => rw [hs] at h; simp at h
      | some p =>
        rw [hs] at h
        obtain ⟨a0, b0⟩ := p
        simp only [Option.map_some'] at h
        cases h
        obtain ⟨hdec, hnot⟩ := ih a0 hs
        constructor
        · rw [hdec]; rfl
        · intro hmem
          rcases List.mem_cons.mp hmem with h1 | h1
          · exact hx h1.symm
          · exact hnot h1

/-- A failed first-split means the separator is absent. -/
theorem splitFirst_none (c : Char) (l : Str) (h : splitFirst c l = none) : c ∉ l := by
  induction l with
  | nil => simp
  | cons x xs ih =>
    by_cases hx : x = c
    · subst hx; simp [splitFirst] at h
    · simp only [splitFirst, if_neg hx] at h
      cases hs : splitFirst c xs with
      | none =>
        intro hmem
        rcases List.mem_cons.mp hmem with h1 | h1
        · exact hx h1.symm
        · exact ih hs h1
      | some p => rw [hs] at h; simp at h

/-- The separator is absent exactly when the first-split fails. -/
theorem splitFirst_eq_none (c : Char) (l : Str) (h : c ∉ l) : splitFirst c l = none := by
  induction l with
  | nil => rfl
  | cons x xs ih =>
    have hx : ¬ x = c := by
      intro hc; exact h (by rw [hc]; exact List.mem_cons_self _ _)
    simp only [splitFirst, if_neg hx]
    rw [ih (fun hm => h (List.mem_cons_of_mem _ hm))]
    rfl

/-- Splitting at an explicit separator occurrence after a clean prefix. -/
theorem splitFirst_append (c : Char) (a b : Str) (ha : c ∉ a) :
    splitFirst c (a ++ c :: b) = some (a, b) := by
  induction a with
  | nil => simp [splitFirst]
  | cons x xs ih =>
    have hx : ¬ x = c := by
      intro hc; exact ha (by rw [hc]; exact List.mem_cons_self _ _)
    simp only [List.cons_append, splitFirst, if_neg hx]
    rw [show xs.append (c :: b) = xs ++ c :: b from rfl]
    rw [ih (fun hm => ha (List.mem_cons_of_mem _ hm))]
    rfl

/-- The netloc scan decomposes its input and contains no delimiter. -/
theorem splitnetlocCore_shape (x a b : Str) (h : splitnetlocCore x = (a, b)) :
    x = a ++ b ∧ ('/' ∉ a ∧ '?' ∉ a ∧ '#' ∉ a) ∧
      (b = [] ∨ ∃ c t, b = c :: t ∧ (c = '/' ∨ c = '?' ∨ c = '#')) := by
  induction x generalizing a with
  | nil =>
    simp [splitnetlocCore] at h
    obtain ⟨ha, hb⟩ := h
    subst ha; subst hb
    simp
  | cons y ys ih =>
    by_cases hy : y = '/' ∨ y = '?' ∨ y = '#'
    · simp only [splitnetlocCore, if_pos hy] at h
      cases h
      exact ⟨rfl, by simp, Or.inr ⟨y, ys, rfl, hy⟩⟩
    · simp only [splitnetlocCore, if_neg hy] at h
      cases hs : splitnetlocCore ys with
      | mk a0 b0 =>
        rw [hs] at h
        simp only at h
        cases h
        obtain ⟨hdec, ⟨h1, h2, h3⟩, hb⟩ := ih a0 hs
        push_neg at hy
        refine ⟨by rw [hdec]; rfl, ⟨?_, ?_, ?_⟩, hb⟩
        · intro hm
          rcases List.mem_cons.mp hm with hm | hm
          · exact hy.1 hm.symm
          · exact h1 hm
        · intro hm
          rcases List.mem_cons.mp hm with hm | hm
          · exact hy.2.1 hm.symm
          · exact h2 hm
        · intro hm
          rcases List.mem_cons.mp hm with hm | hm
          · exact hy.2.2 hm.symm
          · exact h3 hm

/-- The netloc scan over a delimiter-free prefix stops at the boundary. -/
theorem splitnetlocCore_append (n r : Str)
    (hn : '/' ∉ n ∧ '?' ∉ n ∧ '#' ∉ n) (hr : r = [] ∨ r.head? = some '/') :
    splitnetlocCore (n ++ r) = (n, r) := by
  induction n with
  | nil =>
    rcases hr with hr | hr
    · subst hr; rfl
    · cases r with
      | nil => rfl
      | cons c t =>
        simp only [List.head?] at hr
        cases hr
        simp [splitnetlocCore]
  | cons y ys ih =>
    have hy : ¬ (y = '/' ∨ y = '?' ∨ y = '#') := by
      rintro (h | h | h)
      · exact hn.1 (by rw [h]; exact List.mem_cons_self _ _)
      · exact hn.2.1 (by rw [h]; exact List.mem_cons_self _ _)
      · exact hn.2.2 (by rw [h]; exact List.mem_cons_self _ _)
    have hn2 : '/' ∉ ys ∧ '?' ∉ ys ∧ '#' ∉ ys :=
      ⟨fun hm => hn.1 (List.mem_cons_of_mem _ hm),
       fun hm => hn.2.1 (List.mem_cons_of_mem _ hm),
       fun hm => hn.2.2 (List.mem_cons_of_mem _ hm)⟩
    simp only [List.cons_append, splitnetlocCore, if_neg hy]
    rw [show ys.append r = ys ++ r from rfl]
    rw [ih hn2]

/-- Evaluation of `Char.ofNat` below the surrogate range. -/
theorem char_toNat_ofNat (n : Nat) (h : n < 55296) : (Char.ofNat n).toNat = n := by
  have hv : n.isValidChar := Or.inl h
  simp only [Char.ofNat, hv, dif_pos, Char.ofNatAux, Char.toNat, UInt32.toNat,
    UInt32.ofNatCore]
  simp [BitVec.toNat_ofNat]

/-- Character order is the order of code points. -/
theorem char_le_iff (a b : Char) : a ≤ b ↔ a.toNat ≤ b.toNat := by
  simp [Char.le_def, UInt32.le_def, Char.toNat, UInt32.toNat, BitVec.le_def]

/-- Lower-casing an upper-case letter adds 32 to the code point. -/
theorem asciiLower_toNat_upper (c : Char) (h : 'A' ≤ c ∧ c ≤ 'Z') :
    (asciiLower c).toNat = c.toNat + 32 := by
  have h90 : c.toNat ≤ 90 := by
    have := (char_le_iff c 'Z').mp h.2
    simpa using this
  unfold asciiLower
  rw [if_pos h]
  exact char_toNat_ofNat _ (by omega)

/-- Lower-casing fixes characters that are not upper-case letters. -/
theorem asciiLower_eq_self (c : Char) (h : ¬ ('A' ≤ c ∧ c ≤ 'Z')) :
    asciiLower c = c := by
  simp only [asciiLower, if_neg h]

/-- Lower-casing is idempotent. -/
theorem asciiLower_idem (c : Char) : asciiLower (asciiLower c) = asciiLower c := by
  by_cases h : 'A' ≤ c ∧ c ≤ 'Z'
  · apply asciiLower_eq_self
    intro hc
    have h65 : 65 ≤ c.toNat := by
      have := (char_le_iff 'A' c).mp h.1
      simpa using this
    have hup := asciiLower_toNat_upper c h
    have hle := (char_le_iff (asciiLower c) 'Z').mp hc.2
    rw [hup] at hle
    have hz : Char.toNat 'Z' = 90 := rfl
    rw [hz] at hle
    omega
  · simp [asciiLower_eq_self c h]

/-! ### Shape of a successful parse -/

/-- A well-formed detected scheme: nonempty, already lower-cased, made of
scheme characters, starting with an ASCII letter. -/
def WfScheme (s : Str) : Prop :=
  s ≠ [] ∧ s.map asciiLower = s ∧ s.all isSchemeChar = true ∧
    ∃ c cs, s = c :: cs ∧ isAsciiAlpha c = true

/-- Scheme characters sit strictly above the ASCII control/space range. -/
theorem isSchemeChar_ge (c : Char) (h : isSchemeChar c = true) : 43 ≤ c.toNat := by
  simp only [isSchemeChar, decide_eq_true_eq] at h
  rcases h with ⟨h1, -⟩ | ⟨h1, -⟩ | ⟨h1, -⟩ | h1 | h1 | h1
  · have := (char_le_iff 'a' c).mp h1
    simp only [show Char.toNat 'a' = 97 from rfl] at this
    omega
  · have := (char_le_iff 'A' c).mp h1
    simp only [show Char.toNat 'A' = 65 from rfl] at this
    omega
  · have := (char_le_iff '0' c).mp h1
    simp only [show Char.toNat '0' = 48 from rfl] at this
    omega
  · rw [h1]; decide
  · rw [h1]; decide
  · rw [h1]; decide

/-- ASCII letters sit strictly above the control/space range. -/
theorem isAsciiAlpha_ge (c : Char) (h : isAsciiAlpha c = true) : 65 ≤ c.toNat := by
  simp only [isAsciiAlpha, decide_eq_true_eq] at h
  rcases h with ⟨h1, -⟩ | ⟨h1, -⟩
  · have := (char_le_iff 'a' c).mp h1
    simp only [show Char.toNat 'a' = 97 from rfl] at this
    omega
  · have := (char_le_iff 'A' c).mp h1
    simp only [show Char.toNat 'A' = 65 from rfl] at this
    omega

/-- Lower-casing preserves scheme characters. -/
theorem isSchemeChar_asciiLower (c : Char) (h : isSchemeChar c = true) :
    isSchemeChar (asciiLower c) = true := by
  by_cases hup : 'A' ≤ c ∧ c ≤ 'Z'
  · have h65 : 65 ≤ c.toNat := by
      have := (char_le_iff 'A' c).mp hup.1
      simpa using this
    have h90 : c.toNat ≤ 90 := by
      have := (char_le_iff c 'Z').mp hup.2
      simpa using this
    have hl := asciiLower_toNat_upper c hup
    simp only [isSchemeChar, decide_eq_true_eq]
    left
    constructor
    · rw [char_le_iff]
      simp only [show Char.toNat 'a' = 97 from rfl]
      omega
    · rw [char_le_iff]
      simp only [show Char.toNat 'z' = 122 from rfl]
      omega
  · rw [asciiLower_eq_self c hup]
    exact h

/-- Lower-casing preserves ASCII letters. -/
theorem isAsciiAlpha_asciiLower (c : Char) (h : isAsciiAlpha c = true) :
    isAsciiAlpha (asciiLower c) = true := by
  by_cases hup : 'A' ≤ c ∧ c ≤ 'Z'
  · have h65 : 65 ≤ c.toNat := by
      have := (char_le_iff 'A' c).mp hup.1
      simpa using this
    have h90 : c.toNat ≤ 90 := by
      have := (char_le_iff c 'Z').mp hup.2
      simpa using this
    have hl := asciiLower_toNat_upper c hup
    simp only [isAsciiAlpha, decide_eq_true_eq]
    left
    constructor
    · rw [char_le_iff]
      simp only [show Char.toNat 'a' = 97 from rfl]
      omega
    · rw [char_le_iff]
      simp only [show Char.toNat 'z' = 122 from rfl]
      omega
  · rw [asciiLower_eq_self c hup]
    exact h

/-- A character of a well-formed scheme is never a separator: the colon,
the slash, the hash, the question mark and the unsafe bytes are not
scheme characters. -/
theorem wfScheme_no_sep (s : Str) (hs : WfScheme s) :
    ':' ∉ s ∧ '/' ∉ s ∧ '#' ∉ s ∧ '?' ∉ s ∧ ';' ∉ s ∧
      ∀ c ∈ s, isUnsafeByte c = false := by
  obtain ⟨-, -, hall, -⟩ := hs
  have hmem : ∀ c ∈ s, isSchemeChar c = true := by
    intro c hc
    exact List.all_eq_true.mp hall c hc
  refine ⟨?_, ?_, ?_, ?_, ?_, ?_⟩
  · intro hc
    have := hmem _ hc
    simp [isSchemeChar] at this
  · intro hc
    have := hmem _ hc
    simp [isSchemeChar] at this
  · intro hc
    have := hmem _ hc
    simp [isSchemeChar] at this
  · intro hc
    have := hmem _ hc
    simp [isSchemeChar] at this
  · intro hc
    have := hmem _ hc
    simp [isSchemeChar] at this
  · intro c hc
    have h43 := isSchemeChar_ge c (hmem c hc)
    simp only [isUnsafeByte, decide_eq_true_eq]
    simp only [Bool.decide_or, Bool.or_eq_false_iff, decide_eq_false_iff_not]
    refine ⟨?_, ?_, ?_⟩ <;> intro hcon <;> rw [hcon] at h43 <;> simp at h43

/-- Shape of a successful scheme detection. -/
theorem extractScheme_shape (x s r : Str) (h : extractScheme x = some (s, r)) :
    WfScheme s ∧ ∃ pre, x = pre ++ ':' :: r ∧ ':' ∉ pre ∧ s = pre.map asciiLower := by
  unfold extractScheme at h
  cases hs : splitFirst ':' x with
  | none => rw [hs] at h; cases h
  | some q =>
    rw [hs] at h
    obtain ⟨a, b⟩ := q
    cases a with
    | nil => simp at h
    | cons c cs =>
      dsimp only at h
      by_cases hcheck : isAsciiAlpha c = true ∧ (c :: cs).all isSchemeChar = true
      · rw [if_pos hcheck] at h
        cases h
        obtain ⟨hdec, hnot⟩ := splitFirst_shape ':' x (c :: cs) r hs
        refine ⟨?_, c :: cs, hdec, hnot, rfl⟩
        refine ⟨by simp, ?_, ?_, ?_⟩
        · simp [List.map_map, Function.comp_def, asciiLower_idem]
        · simp only [List.all_map]
          apply List.all_eq_true.mpr
          intro c2 hc2
          exact isSchemeChar_asciiLower _ (List.all_eq_true.mp hcheck.2 _ hc2)
        · exact ⟨asciiLower c, cs.map asciiLower, by simp,
            isAsciiAlpha_asciiLower c hcheck.1⟩
      · rw [if_neg hcheck] at h
        cases h

/-- Scheme detection succeeds on a well-formed scheme before a colon,
returning it unchanged (it is already lower-cased). -/
theorem extractScheme_build (s tail : Str) (hs : WfScheme s) :
    extractScheme (s ++ ':' :: tail) = some (s, tail) := by
  obtain ⟨hne, hmap, hall, c, cs, hcons, halpha⟩ := hs
  have hnc : ':' ∉ s := (wfScheme_no_sep s ⟨hne, hmap, hall, c, cs, hcons, halpha⟩).1
  unfold extractScheme
  rw [splitFirst_append ':' s tail hnc]
  subst hcons
  dsimp only
  rw [if_pos ⟨halpha, hall⟩]
  rw [show List.map asciiLower (c :: cs) = c :: cs from hmap]

/-- Scheme detection fails on a string that starts with a slash. -/
theorem extractScheme_slashHead (rest : Str) : extractScheme ('/' :: rest) = none := by
  unfold extractScheme
  have h1 : ¬ ('/' : Char) = ':' := by decide
  simp only [splitFirst, if_neg h1]
  cases hs : splitFirst ':' rest with
  | none => rfl
  | some p =>
    obtain ⟨a, b⟩ := p
    dsimp only [Option.map_some']
    rw [if_neg]
    intro hcon
    have : isAsciiAlpha '/' = true := hcon.1
    simp [isAsciiAlpha] at this

/-! ### Trailing-slash stripping -/

/-- Members of a dropWhile result are members of the original list. -/
theorem mem_of_mem_dropWhile (p : Char → Bool) (l : Str) (c : Char)
    (h : c ∈ l.dropWhile p) : c ∈ l :=
  (List.dropWhile_sublist p).subset h

/-- The head of a dropWhile result falsifies the predicate. -/
theorem head_dropWhile_false (p : Char → Bool) (l : Str) (c : Char)
    (h : (l.dropWhile p).head? = some c) : p c = false := by
  induction l with
  | nil => simp [List.dropWhile] at h
  | cons x xs ih =>
    by_cases hx : p x = true
    · rw [List.dropWhile_cons_of_pos hx] at h
      exact ih h
    · rw [List.dropWhile_cons_of_neg hx] at h
      simp only [List.head?] at h
      cases h
      exact Bool.not_eq_true _ |>.mp hx

/-- Every stripped string decomposes as the result plus the removed run
of slashes. -/
theorem rstripSlash_decomp (l : Str) :
    rstripSlash l ++ (l.reverse.takeWhile (fun c => c = '/')).reverse = l := by
  unfold rstripSlash
  rw [← List.reverse_append]
  rw [List.takeWhile_append_dropWhile]
  exact List.reverse_reverse l

/-- Characters survive stripping only if present originally. -/
theorem mem_of_mem_rstripSlash (l : Str) (c : Char) (h : c ∈ rstripSlash l) : c ∈ l := by
  have hd := rstripSlash_decomp l
  rw [← hd]
  exact List.mem_append_left _ h

/-- The strip result never ends in a slash. -/
theorem rstripSlash_getLast (l : Str) (c : Char)
    (h : (rstripSlash l).getLast? = some c) : ¬ c = '/' := by
  unfold rstripSlash at h
  rw [List.getLast?_reverse] at h
  have := head_dropWhile_false _ _ _ h
  simpa using this

/-- A nonempty strip result keeps the original head. -/
theorem rstripSlash_head (l : Str) (h : rstripSlash l ≠ []) :
    (rstripSlash l).head? = l.head? := by
  have hd := rstripSlash_decomp l
  conv_rhs => rw [← hd]
  cases hr : rstripSlash l with
  | nil => exact absurd hr h
  | cons x xs => simp

/-- Stripping a compound whose first part does not end in a slash only
touches the second part. -/
theorem rstripSlash_append (x y : Str)
    (hx : ∀ c, x.getLast? = some c → ¬ c = '/') :
    rstripSlash (x ++ y) = x ++ rstripSlash y := by
  unfold rstripSlash
  rw [List.reverse_append]
  rw [List.dropWhile_append]
  by_cases hy : (y.reverse.dropWhile fun c => c = '/') = []
  · rw [hy]
    simp only [List.isEmpty_nil, if_true]
    cases hx2 : x.reverse with
    | nil =>
      have : x = [] := by
        have := congrArg List.reverse hx2
        simpa using this
      simp [this, List.dropWhile]
    | cons c cs =>
      have hlast : x.getLast? = some c := by
        rw [← List.head?_reverse]
        rw [hx2]
        rfl
      have hc := hx c hlast
      rw [List.dropWhile_cons_of_neg (by simpa using hc)]
      rw [← hx2, List.reverse_reverse]
      simp
  · rw [if_neg (by simpa using hy)]
    rw [List.reverse_append]
    simp

/-- The fragment split: prefix decomposition, hash-freeness of the kept
part, and membership of both parts. -/
theorem splitFrag_shape (x : Str) :
    (∃ t, (splitFrag x).1 ++ t = x) ∧ '#' ∉ (splitFrag x).1 ∧
      (∀ c ∈ (splitFrag x).2, c ∈ x) := by
  unfold splitFrag
  cases hs : splitFirst '#' x with
  | none =>
    refine ⟨⟨[], by simp⟩, splitFirst_none _ _ hs, by simp⟩
  | some p =>
    obtain ⟨a, b⟩ := p
    obtain ⟨hdec, hnot⟩ := splitFirst_shape '#' x a b hs
    subst hdec
    exact ⟨⟨'#' :: b, rfl⟩, hnot, by
      intro c hc
      exact List.mem_append_right _ (List.mem_cons_of_mem _ hc)⟩

/-- The query split: prefix decomposition, query-mark-freeness of the
kept part, membership, and triviality when no query mark exists. -/
theorem splitQuery_shape (x : Str) :
    (∃ t, (splitQuery x).1 ++ t = x) ∧ '?' ∉ (splitQuery x).1 ∧
      (∀ c ∈ (splitQuery x).2, c ∈ x) ∧ ('?' ∉ x → splitQuery x = (x, [])) := by
  unfold splitQuery
  cases hs : splitFirst '?' x with
  | none =>
    refine ⟨⟨[], by simp⟩, splitFirst_none _ _ hs, by simp, fun _ => rfl⟩
  | some p =>
    obtain ⟨a, b⟩ := p
    obtain ⟨hdec, hnot⟩ := splitFirst_shape '?' x a b hs
    subst hdec
    refine ⟨⟨'?' :: b, rfl⟩, hnot, by
      intro c hc
      exact List.mem_append_right _ (List.mem_cons_of_mem _ hc), ?_⟩
    intro hq
    exact absurd (List.mem_append_right _ (List.mem_cons_self _ _)) hq

/-- Shape of a successful post-scheme split: the scheme is carried
through; the netloc is free of its delimiters and passed its checks;
path and query carry no stray separators; everything comes from the
input; a nonempty netloc forces an empty or absolute path; and the
query is empty when the input has no query mark. -/
theorem urlsplitRest_shape (scheme rest : Str) (r : SplitResult)
    (h : urlsplitRest scheme rest = some r) :
    r.scheme = scheme ∧
    ('/' ∉ r.netloc ∧ '?' ∉ r.netloc ∧ '#' ∉ r.netloc) ∧
    bracketMismatch r.netloc = false ∧
    (('[' ∈ r.netloc ∧ ']' ∈ r.netloc) →
      checkBracketedHost (hostnameOfBrackets r.netloc) = true) ∧
    ('#' ∉ r.path ∧ '?' ∉ r.path) ∧ '#' ∉ r.query ∧
    (∀ c ∈ r.netloc, c ∈ rest) ∧ (∀ c ∈ r.path, c ∈ rest) ∧
    (∀ c ∈ r.query, c ∈ rest) ∧
    (r.netloc ≠ [] → (r.path = [] ∨ r.path.head? = some '/')) ∧
    ('?' ∉ rest → r.query = []) := by
  unfold urlsplitRest at h
  by_cases hss : startsSlashSlash rest = true
  · rw [if_pos hss] at h
    cases hnl : splitnetlocCore (rest.drop 2) with
    | mk nloc after =>
      rw [hnl] at h
      obtain ⟨hdec, hfree, hafter⟩ := splitnetlocCore_shape _ _ _ hnl
      have hsubrest : ∀ c, c ∈ nloc ∨ c ∈ after → c ∈ rest := by
        intro c hc
        have hmem : c ∈ rest.drop 2 := by
          rw [hdec]
          rcases hc with hc | hc
          · exact List.mem_append_left _ hc
          · exact List.mem_append_right _ hc
        exact (List.drop_sublist 2 rest).subset hmem
      by_cases hbr : bracketMismatch nloc = true
      · rw [if_pos hbr] at h
        cases h
      · rw [if_neg hbr] at h
        by_cases hbh : ('[' ∈ nloc ∧ ']' ∈ nloc) ∧
            ¬ checkBracketedHost (hostnameOfBrackets nloc) = true
        · rw [if_pos hbh] at h
          cases h
        · rw [if_neg hbh] at h
          simp only [Option.some.injEq] at h
          subst h
          obtain ⟨⟨t1, hfr⟩, hnofr, hfr2⟩ := splitFrag_shape after
          obtain ⟨⟨t2, hqu⟩, hnoqu, hqu2, hqtriv⟩ := splitQuery_shape (splitFrag after).1
          have hfragsub : ∀ c ∈ (splitFrag after).1, c ∈ after := by
            intro c hc
            rw [← hfr]
            exact List.mem_append_left _ hc
          have hpathfrag : ∀ c ∈ (splitQuery (splitFrag after).1).1,
              c ∈ (splitFrag after).1 := by
            intro c hc
            rw [← hqu]
            exact List.mem_append_left _ hc
          refine ⟨rfl, hfree, by simpa using hbr, ?_, ⟨?_, hnoqu⟩, ?_, ?_, ?_, ?_, ?_, ?_⟩
          · intro hb
            by_contra hc
            exact hbh ⟨hb, hc⟩
          · intro hc
            exact hnofr (hpathfrag _ hc)
          · intro hc
            exact hnofr (hqu2 _ hc)
          · intro c hc
            exact hsubrest c (Or.inl hc)
          · intro c hc
            exact hsubrest c (Or.inr (hfragsub _ (hpathfrag _ hc)))
          · intro c hc
            exact hsubrest c (Or.inr (hfragsub _ (hqu2 _ hc)))
          · intro _
            show (splitQuery (splitFrag after).1).1 = [] ∨
              List.head? (splitQuery (splitFrag after).1).1 = some ('/')
            cases hp : (splitQuery (splitFrag after).1).1 with
            | nil => exact Or.inl rfl
            | cons c cs =>
              right
              have hcp : c ∈ (splitQuery (splitFrag after).1).1 := by
                rw [hp]
                exact List.mem_cons_self _ _
              have hhead : after.head? = some c := by
                rw [← hfr, ← hqu, hp]
                rfl
              rcases hafter with hemp | ⟨c0, t0, hct, hdelim⟩
              · rw [hemp] at hhead
                simp at hhead
              · rw [hct] at hhead
                simp only [List.head?] at hhead
                cases hhead
                simp only [List.head?]
                rcases hdelim with hd | hd | hd
                · rw [hd]
                · exfalso
                  rw [hd] at hcp
                  exact hnoqu hcp
                · exfalso
                  rw [hd] at hcp
                  exact hnofr (hpathfrag _ hcp)
          · intro hq
            show (splitQuery (splitFrag after).1).2 = []
            have hqa : '?' ∉ (splitFrag after).1 := by
              intro hc
              exact hq (hsubrest _ (Or.inr (hfragsub _ hc)))
            rw [hqtriv hqa]
  · rw [if_neg hss] at h
    rw [if_neg (by decide : ¬ bracketMismatch ([] : Str) = true)] at h
    rw [if_neg (fun hcon => (List.not_mem_nil '[') hcon.1.1)] at h
    simp only [Option.some.injEq] at h
    subst h
    obtain ⟨⟨t1, hfr⟩, hnofr, hfr2⟩ := splitFrag_shape rest
    obtain ⟨⟨t2, hqu⟩, hnoqu, hqu2, hqtriv⟩ := splitQuery_shape (splitFrag rest).1
    have hfragsub : ∀ c ∈ (splitFrag rest).1, c ∈ rest := by
      intro c hc
      rw [← hfr]
      exact List.mem_append_left _ hc
    have hpathfrag : ∀ c ∈ (splitQuery (splitFrag rest).1).1,
        c ∈ (splitFrag rest).1 := by
      intro c hc
      rw [← hqu]
      exact List.mem_append_left _ hc
    refine ⟨rfl, ⟨List.not_mem_nil _, List.not_mem_nil _, List.not_mem_nil _⟩,
      (by decide : bracketMismatch ([] : Str) = false),
      fun hcon => absurd hcon.1 (List.not_mem_nil _),
      ⟨?_, hnoqu⟩, ?_, fun c hc => absurd hc (List.not_mem_nil _), ?_, ?_, ?_, ?_⟩
    · intro hc
      exact hnofr (hpathfrag _ hc)
    · intro hc
      exact hnofr (hqu2 _ hc)
    · intro c hc
      exact hfragsub _ (hpathfrag _ hc)
    · intro c hc
      exact hfragsub _ (hqu2 _ hc)
    · intro hcon
      exact absurd rfl hcon
    · intro hq
      show (splitQuery (splitFrag rest).1).2 = []
      have hqa : '?' ∉ (splitFrag rest).1 := by
        intro hc
        exact hq (hfragsub _ hc)
      rw [hqtriv hqa]

/-- A failed last-split means the separator is absent. -/
theorem splitLast_none (c : Char) (l : Str) (h : splitLast c l = none) : c ∉ l := by
  induction l with
  | nil => simp
  | cons x xs ih =>
    intro hmem
    simp only [splitLast] at h
    cases hs : splitLast c xs with
    | some p => rw [hs] at h; cases h
    | none =>
      rw [hs] at h
      by_cases hx : x = c
      · rw [if_pos hx] at h; cases h
      · rcases List.mem_cons.mp hmem with hm | hm
        · exact hx hm.symm
        · exact ih hs hm

/-- Shape of a successful last-split. -/
theorem splitLast_shape (c : Char) (l a b : Str) (h : splitLast c l = some (a, b)) :
    l = a ++ c :: b ∧ c ∉ b := by
  induction l generalizing a with
  | nil => simp [splitLast] at h
  | cons x xs ih =>
    simp only [splitLast] at h
    cases hs : splitLast c xs with
    | some p =>
      obtain ⟨a0, b0⟩ := p
      rw [hs] at h
      simp only [Option.some.injEq, Prod.mk.injEq] at h
      obtain ⟨ha, hb⟩ := h
      subst hb
      obtain ⟨hdec, hnb⟩ := ih a0 hs
      rw [← ha, hdec]
      exact ⟨rfl, hnb⟩
    | none =>
      rw [hs] at h
      by_cases hx : x = c
      · rw [if_pos hx] at h
        simp only [Option.some.injEq, Prod.mk.injEq] at h
        obtain ⟨ha, hb⟩ := h
        subst hx
        rw [← ha, ← hb]
        exact ⟨rfl, splitLast_none _ xs hs⟩
      · rw [if_neg hx] at h
        cases h

/-- Both halves of the parameter split are made of the input's characters. -/
theorem splitparams_sub (x : Str) :
    (∀ c ∈ (splitparams x).1, c ∈ x) ∧ (∀ c ∈ (splitparams x).2, c ∈ x) := by
  unfold splitparams
  cases hl : splitLast '/' x with
  | some p =>
    obtain ⟨a, b⟩ := p
    obtain ⟨hdec, -⟩ := splitLast_shape '/' x a b hl
    dsimp only
    cases hf : splitFirst ';' b with
    | some q =>
      obtain ⟨c0, d0⟩ := q
      obtain ⟨hdec2, -⟩ := splitFirst_shape ';' b c0 d0 hf
      dsimp only
      constructor
      · intro c hc
        rw [hdec, hdec2]
        rcases List.mem_append.mp hc with hm | hm
        · exact List.mem_append_left _ hm
        · rcases List.mem_cons.mp hm with hm | hm
          · rw [hm]; simp
          · refine List.mem_append_right _ ?_
            exact List.mem_cons_of_mem _ (List.mem_append_left _ hm)
      · intro c hc
        rw [hdec, hdec2]
        refine List.mem_append_right _ ?_
        refine List.mem_cons_of_mem _ ?_
        refine List.mem_append_right _ ?_
        exact List.mem_cons_of_mem _ hc
    | none => dsimp only; exact ⟨fun c hc => hc, by simp⟩
  | none =>
    dsimp only
    cases hf : splitFirst ';' x with
    | some q =>
      obtain ⟨c0, d0⟩ := q
      obtain ⟨hdec2, -⟩ := splitFirst_shape ';' x c0 d0 hf
      dsimp only
      rw [hdec2]
      constructor
      · intro c hc
        exact List.mem_append_left _ hc
      · intro c hc
        exact List.mem_append_right _ (List.mem_cons_of_mem _ hc)
    | none => dsimp only; exact ⟨fun c hc => hc, by simp⟩

/-- The path kept by the parameter split is empty or keeps the head. -/
theorem splitparams_head (x : Str) :
    (splitparams x).1 = [] ∨ (splitparams x).1.head? = x.head? := by
  unfold splitparams
  cases hl : splitLast '/' x with
  | some p =>
    obtain ⟨a, b⟩ := p
    obtain ⟨hdec, -⟩ := splitLast_shape '/' x a b hl
    dsimp only
    cases hf : splitFirst ';' b with
    | some q =>
      obtain ⟨c0, d0⟩ := q
      dsimp only
      right
      rw [hdec]
      cases a with
      | nil => rfl
      | cons a0 as => rfl
    | none => dsimp only; right; rfl
  | none =>
    dsimp only
    cases hf : splitFirst ';' x with
    | some q =>
      obtain ⟨c0, d0⟩ := q
      obtain ⟨hdec2, -⟩ := splitFirst_shape ';' x c0 d0 hf
      dsimp only
      cases c0 with
      | nil => exact Or.inl rfl
      | cons e es => right; rw [hdec2]; rfl
    | none => dsimp only; right; rfl

/-- Characters kept by the WHATWG byte filter come from the input and are
not unsafe. -/
theorem mem_removeUnsafe (l : Str) (c : Char) (h : c ∈ removeUnsafe l) :
    c ∈ l ∧ isUnsafeByte c = false := by
  unfold removeUnsafe at h
  have h1 := List.mem_filter.mp h
  refine ⟨h1.1, ?_⟩
  have h2 := h1.2
  simpa using h2

/-- The byte filter is the identity on clean input. -/
theorem removeUnsafe_eq_self (l : Str) (h : ∀ c ∈ l, isUnsafeByte c = false) :
    removeUnsafe l = l := by
  unfold removeUnsafe
  apply List.filter_eq_self.mpr
  intro c hc
  simpa using h c hc

/-- Shape of a successful `urlsplit` with an empty default scheme: the
scheme is empty or well formed, the netloc passed its checks, the
components carry no stray separators, every component character comes
from the input and is not an unsafe byte, a nonempty netloc forces an
empty or absolute path, and the query is empty when the input carries
no question mark. -/
theorem urlsplit_shape (u : Str) (r : SplitResult) (h : urlsplit u [] = some r) :
    (r.scheme = [] ∨ WfScheme r.scheme) ∧
    ('/' ∉ r.netloc ∧ '?' ∉ r.netloc ∧ '#' ∉ r.netloc) ∧
    bracketMismatch r.netloc = false ∧
    (('[' ∈ r.netloc ∧ ']' ∈ r.netloc) →
      checkBracketedHost (hostnameOfBrackets r.netloc) = true) ∧
    ('#' ∉ r.path ∧ '?' ∉ r.path) ∧ '#' ∉ r.query ∧
    (∀ c, (c ∈ r.netloc ∨ c ∈ r.path ∨ c ∈ r.query) →
      c ∈ u ∧ isUnsafeByte c = false) ∧
    (r.netloc ≠ [] → (r.path = [] ∨ r.path.head? = some '/')) ∧
    ('?' ∉ u → r.query = []) := by
  have hurl1 : ∀ c ∈ removeUnsafe (u.dropWhile isC0OrSpace),
      c ∈ u ∧ isUnsafeByte c = false := by
    intro c hc
    obtain ⟨h1, h2⟩ := mem_removeUnsafe _ _ hc
    exact ⟨mem_of_mem_dropWhile _ _ _ h1, h2⟩
  cases hes : extractScheme (removeUnsafe (u.dropWhile isC0OrSpace)) with
  | some p =>
    obtain ⟨ps, pr⟩ := p
    have h2 : urlsplitRest ps pr = some r := by
      rw [← h]
      simp only [urlsplit, hes]
    obtain ⟨hws, pre, hdecu, -, -⟩ := extractScheme_shape _ _ _ hes
    have hprsub : ∀ c ∈ pr, c ∈ u ∧ isUnsafeByte c = false := by
      intro c hc
      refine hurl1 c ?_
      rw [hdecu]
      exact List.mem_append_right _ (List.mem_cons_of_mem _ hc)
    obtain ⟨hsch, hnl, hbm, hbh, hpa, hqu, hmn, hmp, hmq, hhead, hqtriv⟩ :=
      urlsplitRest_shape ps pr r h2
    refine ⟨Or.inr (hsch ▸ hws), hnl, hbm, hbh, hpa, hqu, ?_, hhead, ?_⟩
    · intro c hc
      rcases hc with hc | hc | hc
      · exact hprsub c (hmn c hc)
      · exact hprsub c (hmp c hc)
      · exact hprsub c (hmq c hc)
    · intro hqn
      refine hqtriv ?_
      intro hcon
      exact hqn (hprsub _ hcon).1
  | none =>
    have h2 : urlsplitRest (removeUnsafe (stripC0 [])) (removeUnsafe (u.dropWhile isC0OrSpace))
        = some r := by
      rw [← h]
      simp only [urlsplit, hes]
    rw [show removeUnsafe (stripC0 []) = ([] : Str) from rfl] at h2
    obtain ⟨hsch, hnl, hbm, hbh, hpa, hqu, hmn, hmp, hmq, hhead, hqtriv⟩ :=
      urlsplitRest_shape _ _ r h2
    refine ⟨Or.inl hsch, hnl, hbm, hbh, hpa, hqu, ?_, hhead, ?_⟩
    · intro c hc
      rcases hc with hc | hc | hc
      · exact hurl1 c (hmn c hc)
      · exact hurl1 c (hmp c hc)
      · exact hurl1 c (hmq c hc)
    · intro hqn
      refine hqtriv ?_
      intro hcon
      exact hqn (hurl1 _ hcon).1

/-- Shape of a successful `urlparse` with an empty default scheme,
extending `urlsplit_shape` through the parameter split. -/
theorem urlparse_shape (u : Str) (p : ParseResult) (h : urlparse u [] = some p) :
    (p.scheme = [] ∨ WfScheme p.scheme) ∧
    ('/' ∉ p.netloc ∧ '?' ∉ p.netloc ∧ '#' ∉ p.netloc) ∧
    bracketMismatch p.netloc = false ∧
    (('[' ∈ p.netloc ∧ ']' ∈ p.netloc) →
      checkBracketedHost (hostnameOfBrackets p.netloc) = true) ∧
    ('#' ∉ p.path ∧ '?' ∉ p.path) ∧ ('#' ∉ p.params ∧ '?' ∉ p.params) ∧ '#' ∉ p.query ∧
    (∀ c, (c ∈ p.netloc ∨ c ∈ p.path ∨ c ∈ p.params ∨ c ∈ p.query) →
      c ∈ u ∧ isUnsafeByte c = false) ∧
    (p.netloc ≠ [] → (p.path = [] ∨ p.path.head? = some '/')) ∧
    ('?' ∉ u → p.query = []) ∧
    (';' ∉ u → p.params = []) := by
  unfold urlparse at h
  cases hs : urlsplit u [] with
  | none => rw [hs] at h; cases h
  | some r =>
    rw [hs] at h
    simp only [Option.map_some', Option.some.injEq] at h
    obtain ⟨hsch, hnl, hbm, hbh, ⟨hpa1, hpa2⟩, hqu, hmem, hhead, hqtriv⟩ :=
      urlsplit_shape u r hs
    by_cases hcond : r.scheme ∈ usesParams ∧ ';' ∈ r.path
    · rw [if_pos hcond] at h
      subst h
      obtain ⟨hps1, hps2⟩ := splitparams_sub r.path
      refine ⟨hsch, hnl, hbm, hbh, ⟨?_, ?_⟩, ⟨?_, ?_⟩, hqu, ?_, ?_, ?_, ?_⟩
      · intro hc; exact hpa1 (hps1 _ hc)
      · intro hc; exact hpa2 (hps1 _ hc)
      · intro hc; exact hpa1 (hps2 _ hc)
      · intro hc; exact hpa2 (hps2 _ hc)
      · intro c hc
        rcases hc with hc | hc | hc | hc
        · exact hmem c (Or.inl hc)
        · exact hmem c (Or.inr (Or.inl (hps1 _ hc)))
        · exact hmem c (Or.inr (Or.inl (hps2 _ hc)))
        · exact hmem c (Or.inr (Or.inr hc))
      · intro hne
        rcases splitparams_head r.path with hh | hh
        · exact Or.inl hh
        · rcases hhead hne with hp0 | hp0
          · rw [hp0] at hcond
            cases hcond.2
          · rcases hh0 : (splitparams r.path).1 with - | ⟨e, es⟩
            · exact Or.inl rfl
            · right
              rw [← hh0, hh, hp0]
      · intro hqn
        exact hqtriv hqn
      · intro hsemi
        exfalso
        exact hsemi (hmem ';' (Or.inr (Or.inl hcond.2))).1
    · rw [if_neg hcond] at h
      subst h
      refine ⟨hsch, hnl, hbm, hbh, ⟨hpa1, hpa2⟩, ⟨by simp, by simp⟩, hqu, ?_, hhead, hqtriv, fun hsemi => rfl⟩
      intro c hc
      rcases hc with hc | hc | hc | hc
      · exact hmem c (Or.inl hc)
      · exact hmem c (Or.inr (Or.inl hc))
      · simp at hc
      · exact hmem c (Or.inr (Or.inr hc))

/-- Membership in a conditional string. -/
theorem mem_ite_str {P : Prop} [Decidable P] {a b : Str} {c : Char}
    (h : c ∈ (if P then a else b)) : (P ∧ c ∈ a) ∨ c ∈ b := by
  by_cases hp : P
  · rw [if_pos hp] at h
    exact Or.inl ⟨hp, h⟩
  · rw [if_neg hp] at h
    exact Or.inr h

/-- Membership in a separator-joined pair. -/
theorem mem_sepAppend {x y : Str} {s c : Char} (h : c ∈ x ++ s :: y) :
    c ∈ x ∨ c = s ∨ c ∈ y := by
  rcases List.mem_append.mp h with h | h
  · exact Or.inl h
  · rcases List.mem_cons.mp h with h | h
    · exact Or.inr (Or.inl h)
    · exact Or.inr (Or.inr h)

/-- Membership in the authority-bearing prefix built by `urlunsplit`. -/
theorem mem_urlunsplit_url1 (scheme netloc url : Str) (c : Char)
    (h : c ∈ (if netloc ≠ [] ∨ (scheme ≠ [] ∧ scheme ∈ usesNetloc ∧ ¬ startsSlashSlash url) then
        '/' :: '/' :: (netloc ++ (if url ≠ [] ∧ url.head? ≠ some '/' then '/' :: url else url))
      else url)) :
    c ∈ netloc ∨ c ∈ url ∨ c = '/' := by
  rcases mem_ite_str h with ⟨-, h2⟩ | h2
  · rcases List.mem_cons.mp h2 with h3 | h3
    · exact Or.inr (Or.inr h3)
    · rcases List.mem_cons.mp h3 with h4 | h4
      · exact Or.inr (Or.inr h4)
      · rcases List.mem_append.mp h4 with h5 | h5
        · exact Or.inl h5
        · rcases mem_ite_str h5 with ⟨-, h6⟩ | h6
          · rcases List.mem_cons.mp h6 with h7 | h7
            · exact Or.inr (Or.inr h7)
            · exact Or.inr (Or.inl h7)
          · exact Or.inr (Or.inl h6)
  · exact Or.inr (Or.inl h2)

/-- Membership after the scheme is prepended by `urlunsplit`. -/
theorem mem_urlunsplit_url2 (scheme netloc url : Str) (c : Char)
    (h : c ∈ (if scheme ≠ [] then
        scheme ++ ':' ::
          (if netloc ≠ [] ∨ (scheme ≠ [] ∧ scheme ∈ usesNetloc ∧ ¬ startsSlashSlash url) then
            '/' :: '/' :: (netloc ++ (if url ≠ [] ∧ url.head? ≠ some '/' then '/' :: url else url))
          else url)
      else
        (if netloc ≠ [] ∨ (scheme ≠ [] ∧ scheme ∈ usesNetloc ∧ ¬ startsSlashSlash url) then
          '/' :: '/' :: (netloc ++ (if url ≠ [] ∧ url.head? ≠ some '/' then '/' :: url else url))
        else url))) :
    c ∈ scheme ∨ c ∈ netloc ∨ c ∈ url ∨ c = ':' ∨ c = '/' := by
  rcases mem_ite_str h with ⟨-, h2⟩ | h2
  · rcases mem_sepAppend h2 with h3 | h3 | h3
    · exact Or.inl h3
    · exact Or.inr (Or.inr (Or.inr (Or.inl h3)))
    · rcases mem_urlunsplit_url1 scheme netloc url c h3 with h4 | h4 | h4
      · exact Or.inr (Or.inl h4)
      · exact Or.inr (Or.inr (Or.inl h4))
      · exact Or.inr (Or.inr (Or.inr (Or.inr h4)))
  · rcases mem_urlunsplit_url1 scheme netloc url c h2 with h4 | h4 | h4
    · exact Or.inr (Or.inl h4)
    · exact Or.inr (Or.inr (Or.inl h4))
    · exact Or.inr (Or.inr (Or.inr (Or.inr h4)))

/-- Every character of an unsplit result is a component character or one
of the separators the builder inserts (with `?` and `#` only inserted
when the query or fragment is nonempty). -/
theorem mem_urlunsplit (scheme netloc url query fragment : Str) (c : Char)
    (hc : c ∈ urlunsplit scheme netloc url query fragment) :
    c ∈ scheme ∨ c ∈ netloc ∨ c ∈ url ∨ c ∈ query ∨ c ∈ fragment ∨
      c = ':' ∨ c = '/' ∨ (c = '?' ∧ query ≠ []) ∨ (c = '#' ∧ fragment ≠ []) := by
  simp only [urlunsplit] at hc
  have core : ∀ h2 : c ∈ (if scheme ≠ [] then
      scheme ++ ':' ::
        (if netloc ≠ [] ∨ (scheme ≠ [] ∧ scheme ∈ usesNetloc ∧ ¬ startsSlashSlash url) then
          '/' :: '/' :: (netloc ++ (if url ≠ [] ∧ url.head? ≠ some '/' then '/' :: url else url))
        else url)
    else
      (if netloc ≠ [] ∨ (scheme ≠ [] ∧ scheme ∈ usesNetloc ∧ ¬ startsSlashSlash url) then
        '/' :: '/' :: (netloc ++ (if url ≠ [] ∧ url.head? ≠ some '/' then '/' :: url else url))
      else url)),
      c ∈ scheme ∨ c ∈ netloc ∨ c ∈ url ∨ c ∈ query ∨ c ∈ fragment ∨
        c = ':' ∨ c = '/' ∨ (c = '?' ∧ query ≠ []) ∨ (c = '#' ∧ fragment ≠ []) := by
    intro h2
    rcases mem_urlunsplit_url2 scheme netloc url c h2 with h | h | h | h | h
    · exact Or.inl h
    · exact Or.inr (Or.inl h)
    · exact Or.inr (Or.inr (Or.inl h))
    · exact Or.inr (Or.inr (Or.inr (Or.inr (Or.inr (Or.inl h)))))
    · exact Or.inr (Or.inr (Or.inr (Or.inr (Or.inr (Or.inr (Or.inl h))))))
  rcases mem_ite_str hc with ⟨hfr, h⟩ | h
  · rcases mem_sepAppend h with h | h | h
    · rcases mem_ite_str h with ⟨hq, h2⟩ | h2
      · rcases mem_sepAppend h2 with h3 | h3 | h3
        · exact core h3
        · exact Or.inr (Or.inr (Or.inr (Or.inr (Or.inr (Or.inr (Or.inr (Or.inl ⟨h3, hq⟩)))))))
        · exact Or.inr (Or.inr (Or.inr (Or.inl h3)))
      · exact core h2
    · exact Or.inr (Or.inr (Or.inr (Or.inr (Or.inr (Or.inr (Or.inr (Or.inr ⟨h, hfr⟩)))))))
    · exact Or.inr (Or.inr (Or.inr (Or.inr (Or.inl h))))
  · rcases mem_ite_str h with ⟨hq, h2⟩ | h2
    · rcases mem_sepAppend h2 with h3 | h3 | h3
      · exact core h3
      · exact Or.inr (Or.inr (Or.inr (Or.inr (Or.inr (Or.inr (Or.inr (Or.inl ⟨h3, hq⟩)))))))
      · exact Or.inr (Or.inr (Or.inr (Or.inl h3)))
    · exact core h2

/-- Every character of an unparse result is a component character or an
inserted separator. -/
theorem mem_urlunparse (p : ParseResult) (c : Char) (hc : c ∈ urlunparse p) :
    c ∈ p.scheme ∨ c ∈ p.netloc ∨ c ∈ p.path ∨ c ∈ p.params ∨ c ∈ p.query ∨
      c ∈ p.fragment ∨ c = ':' ∨ c = '/' ∨ c = ';' ∨
      (c = '?' ∧ p.query ≠ []) ∨ (c = '#' ∧ p.fragment ≠ []) := by
  unfold urlunparse at hc
  have hsplit := mem_urlunsplit _ _ _ _ _ _ hc
  rcases hsplit with h | h | h | h | h | h | h | h | h
  · exact Or.inl h
  · exact Or.inr (Or.inl h)
  · rcases mem_ite_str h with ⟨-, h2⟩ | h2
    · rcases mem_sepAppend h2 with h3 | h3 | h3
      · exact Or.inr (Or.inr (Or.inl h3))
      · exact Or.inr (Or.inr (Or.inr (Or.inr (Or.inr (Or.inr (Or.inr (Or.inr (Or.inl h3))))))))
      · exact Or.inr (Or.inr (Or.inr (Or.inl h3)))
    · exact Or.inr (Or.inr (Or.inl h2))
  · exact Or.inr (Or.inr (Or.inr (Or.inr (Or.inl h))))
  · exact Or.inr (Or.inr (Or.inr (Or.inr (Or.inr (Or.inl h)))))
  · exact Or.inr (Or.inr (Or.inr (Or.inr (Or.inr (Or.inr (Or.inl h))))))
  · exact Or.inr (Or.inr (Or.inr (Or.inr (Or.inr (Or.inr (Or.inr (Or.inl h)))))))
  · exact Or.inr (Or.inr (Or.inr (Or.inr (Or.inr (Or.inr (Or.inr (Or.inr (Or.inr (Or.inl h)))))))))
  · exact Or.inr (Or.inr (Or.inr (Or.inr (Or.inr (Or.inr (Or.inr (Or.inr (Or.inr (Or.inr h)))))))))

/-- Evaluation of `urlunsplit` with a nonempty authority, an empty or
absolute path and no fragment. -/
theorem urlunsplit_netloc_eq (s n π q : Str) (hn : n ≠ [])
    (hπ : π = [] ∨ π.head? = some '/') :
    urlunsplit s n π q [] =
      (if s ≠ [] then s ++ ':' :: ('/' :: '/' :: (n ++ π))
       else '/' :: '/' :: (n ++ π)) ++
        (if q ≠ [] then '?' :: q else []) := by
  unfold urlunsplit
  rw [if_pos (Or.inl hn)]
  have hu : (if π ≠ [] ∧ π.head? ≠ some '/' then '/' :: π else π) = π := by
    rcases hπ with h | h
    · rw [if_neg]
      simp [h]
    · rw [if_neg]
      intro hcon
      exact hcon.2 h
  rw [hu]
  by_cases hs : s ≠ [] <;> by_cases hq : q ≠ [] <;>
    simp [hs, hq]

/-- A list whose head falsifies the predicate is untouched by `dropWhile`. -/
theorem dropWhile_eq_self_of_head (p : Char → Bool) (l : Str)
    (h : ∀ c, l.head? = some c → p c = false) : l.dropWhile p = l := by
  cases l with
  | nil => rfl
  | cons x xs => exact List.dropWhile_cons_of_neg (by simp [h x rfl])

/-- `urlsplit`'s core on an input it accepts verbatim, when no scheme is
detected. -/
theorem urlsplit_eq_of_none (u : Str)
    (hclean : removeUnsafe (u.dropWhile isC0OrSpace) = u)
    (hes : extractScheme u = none) : urlsplit u [] = urlsplitRest [] u := by
  unfold urlsplit
  simp only [hclean, hes]
  rfl

/-- `urlsplit`'s core on an input it accepts verbatim, when a scheme is
detected. -/
theorem urlsplit_eq_of_scheme (u s rest : Str)
    (hclean : removeUnsafe (u.dropWhile isC0OrSpace) = u)
    (hes : extractScheme u = some (s, rest)) : urlsplit u [] = urlsplitRest s rest := by
  unfold urlsplit
  simp only [hclean, hes]

/-- `urlparse` on a split result whose path carries no parameters. -/
theorem urlparse_of_urlsplit (u : Str) (r : SplitResult)
    (h : urlsplit u [] = some r) (hnp : ¬(r.scheme ∈ usesParams ∧ ';' ∈ r.path)) :
    urlparse u [] = some ⟨r.scheme, r.netloc, r.path, [], r.query, r.fragment⟩ := by
  unfold urlparse
  rw [h]
  simp only [Option.map_some']
  rw [if_neg hnp]

/-- The post-scheme split of a canonical authority-plus-path string. -/
theorem urlsplitRest_build (s n π : Str)
    (hnf : '/' ∉ n ∧ '?' ∉ n ∧ '#' ∉ n)
    (hbm : bracketMismatch n = false)
    (hbh : ('[' ∈ n ∧ ']' ∈ n) → checkBracketedHost (hostnameOfBrackets n) = true)
    (hπ : π = [] ∨ π.head? = some '/')
    (hfr : '#' ∉ π) (hqu : '?' ∉ π) :
    urlsplitRest s ('/' :: '/' :: (n ++ π)) = some ⟨s, n, π, [], []⟩ := by
  have hfrag : splitFrag π = (π, []) := by
    unfold splitFrag
    rw [splitFirst_eq_none '#' π hfr]
  have hquer : splitQuery π = (π, []) := by
    unfold splitQuery
    rw [splitFirst_eq_none '?' π hqu]
  unfold urlsplitRest
  rw [if_pos (show startsSlashSlash ('/' :: '/' :: (n ++ π)) = true from rfl)]
  rw [show List.drop 2 ('/' :: '/' :: (n ++ π)) = n ++ π from rfl]
  rw [splitnetlocCore_append n π hnf hπ]
  dsimp only
  rw [if_neg (show ¬ bracketMismatch n = true by simp [hbm])]
  rw [if_neg (fun hcon => hcon.2 (hbh hcon.1))]
  rw [hfrag]
  dsimp only
  rw [hquer]

/-- Re-parsing a canonical scheme-authority-path string recovers its
components exactly: the fixed-point engine behind the idempotence
analysis of the normalizer. -/
theorem urlparse_build (s n π : Str)
    (hsw : s = [] ∨ WfScheme s)
    (hn : n ≠ []) (hnf : '/' ∉ n ∧ '?' ∉ n ∧ '#' ∉ n)
    (hbm : bracketMismatch n = false)
    (hbh : ('[' ∈ n ∧ ']' ∈ n) → checkBracketedHost (hostnameOfBrackets n) = true)
    (hπ : π = [] ∨ π.head? = some '/')
    (hπf : '#' ∉ π ∧ '?' ∉ π ∧ ';' ∉ π)
    (hsafe : ∀ c, c ∈ n ∨ c ∈ π → isUnsafeByte c = false) :
    urlparse (urlunsplit s n π [] []) [] = some ⟨s, n, π, [], [], []⟩ := by
  have hv := urlunsplit_netloc_eq s n π [] hn hπ
  rw [if_neg (show ¬ ([] : Str) ≠ [] from fun h => h rfl)] at hv
  rw [List.append_nil] at hv
  have hcoresafe : ∀ c ∈ '/' :: '/' :: (n ++ π), isUnsafeByte c = false := by
    intro c hc
    rcases List.mem_cons.mp hc with h | hc
    · rw [h]; decide
    rcases List.mem_cons.mp hc with h | hc
    · rw [h]; decide
    rcases List.mem_append.mp hc with h | h
    · exact hsafe c (Or.inl h)
    · exact hsafe c (Or.inr h)
  have hrest : urlsplitRest s ('/' :: '/' :: (n ++ π)) = some ⟨s, n, π, [], []⟩ :=
    urlsplitRest_build s n π hnf hbm hbh hπ hπf.1 hπf.2.1
  rcases hsw with hse | hws
  · subst hse
    rw [if_neg (fun h => h rfl)] at hv
    rw [hv]
    have hclean : removeUnsafe (('/' :: '/' :: (n ++ π)).dropWhile isC0OrSpace)
        = '/' :: '/' :: (n ++ π) := by
      rw [dropWhile_eq_self_of_head _ _ ?hd]
      · exact removeUnsafe_eq_self _ hcoresafe
      case hd =>
        intro c hc
        simp only [List.head?, Option.some.injEq] at hc
        rw [← hc]
        decide
    have hsp : urlsplit ('/' :: '/' :: (n ++ π)) [] = some ⟨[], n, π, [], []⟩ := by
      rw [urlsplit_eq_of_none _ hclean (extractScheme_slashHead _)]
      exact hrest
    exact urlparse_of_urlsplit _ _ hsp (fun hcon => hπf.2.2 hcon.2)
  · have hne : s ≠ [] := hws.1
    rw [if_pos hne] at hv
    rw [hv]
    obtain ⟨c0, cs0, hs0, halpha⟩ := hws.2.2.2
    have hschsafe := (wfScheme_no_sep s hws).2.2.2.2.2
    have hclean : removeUnsafe ((s ++ ':' :: ('/' :: '/' :: (n ++ π))).dropWhile isC0OrSpace)
        = s ++ ':' :: ('/' :: '/' :: (n ++ π)) := by
      rw [dropWhile_eq_self_of_head _ _ ?hd2]
      · refine removeUnsafe_eq_self _ ?_
        intro c hc
        rcases List.mem_append.mp hc with h | hc
        · exact hschsafe c h
        rcases List.mem_cons.mp hc with h | hc
        · rw [h]; decide
        · exact hcoresafe c hc
      case hd2 =>
        intro c hc
        rw [hs0] at hc
        simp only [List.cons_append, List.head?, Option.some.injEq] at hc
        subst hc
        have h65 := isAsciiAlpha_ge c0 halpha
        simp only [isC0OrSpace, decide_eq_false_iff_not]
        omega
    have hsp : urlsplit (s ++ ':' :: ('/' :: '/' :: (n ++ π))) []
        = some ⟨s, n, π, [], []⟩ := by
      rw [urlsplit_eq_of_scheme _ s _ hclean (extractScheme_build s _ hws)]
      exact hrest
    exact urlparse_of_urlsplit _ _ hsp (fun hcon => hπf.2.2 hcon.2)

/-- C5 (amended): the normalizer never raises (a failed parse returns the
input unchanged); on a successful parse the fragment is removed — no `#`
survives in the output; trailing slashes are stripped (all of them, via
`str.rstrip("/")`, not exactly one) whenever the parsed path is neither
empty nor the root path, so an output ending in `/` can only come from
an empty or root path; and the root path of a proper authority keeps its
slash. -/
theorem normalize_contract_amended (u : Str) :
    (urlparse u [] = none → normalize_url u = u) ∧
    (∀ p, urlparse u [] = some p →
      '#' ∉ normalize_url u ∧
      ((normalize_url u).getLast? = some '/' → p.path = [] ∨ p.path = ['/']) ∧
      (p.netloc ≠ [] → p.path = ['/'] → p.params = [] → p.query = [] →
        (normalize_url u).getLast? = some '/')) := by
  constructor
  · intro hnone
    unfold normalize_url
    rw [hnone]
  · intro p hp
    obtain ⟨hsch, hnl, hbm, hbh, ⟨hpa1, hpa2⟩, ⟨hpr1, hpr2⟩, hqu, hmem, hhead, hqtriv, hstriv⟩ :=
      urlparse_shape u p hp
    have hnu : normalize_url u =
        (if (urlunparse ⟨p.scheme, p.netloc, p.path, p.params, p.query, []⟩).getLast?
              = some '/' ∧ ¬ (p.path = [] ∨ p.path = ['/']) then
          rstripSlash (urlunparse ⟨p.scheme, p.netloc, p.path, p.params, p.query, []⟩)
        else urlunparse ⟨p.scheme, p.netloc, p.path, p.params, p.query, []⟩) := by
      unfold normalize_url
      rw [hp]
    have hhash : '#' ∉ urlunparse ⟨p.scheme, p.netloc, p.path, p.params, p.query, []⟩ := by
      intro hc
      rcases mem_urlunparse _ _ hc with h | h | h | h | h | h | h | h | h | h | h
      · rcases hsch with h0 | h0
        · have h2 : '#' ∈ p.scheme := h
          rw [h0] at h2
          exact List.not_mem_nil _ h2
        · exact (wfScheme_no_sep _ h0).2.2.1 h
      · exact hnl.2.2 h
      · exact hpa1 h
      · exact hpr1 h
      · exact hqu h
      · exact List.not_mem_nil _ h
      · exact absurd h (by decide)
      · exact absurd h (by decide)
      · exact absurd h (by decide)
      · exact absurd h.1 (by decide)
      · exact h.2 rfl
    refine ⟨?_, ?_, ?_⟩
    · rw [hnu]
      intro hc
      rcases mem_ite_str hc with ⟨-, hc2⟩ | hc2
      · exact hhash (mem_of_mem_rstripSlash _ _ hc2)
      · exact hhash hc2
    · rw [hnu]
      by_cases hcond : (urlunparse ⟨p.scheme, p.netloc, p.path, p.params, p.query, []⟩).getLast?
          = some '/' ∧ ¬ (p.path = [] ∨ p.path = ['/'])
      · rw [if_pos hcond]
        intro hl
        exact absurd rfl (rstripSlash_getLast _ _ hl)
      · rw [if_neg hcond]
        intro hl
        by_contra hnp
        exact hcond ⟨hl, hnp⟩
    · intro hn hpath hparams hquery
      have hnorm : urlunparse ⟨p.scheme, p.netloc, p.path, p.params, p.query, []⟩
          = urlunsplit p.scheme p.netloc ['/'] [] [] := by
        show urlunsplit p.scheme p.netloc
            (if p.params ≠ [] then p.path ++ ';' :: p.params else p.path) p.query [] =
          urlunsplit p.scheme p.netloc ['/'] [] []
        rw [hparams, hpath, hquery]
        rw [if_neg (fun h => h rfl)]
      have hval := urlunsplit_netloc_eq p.scheme p.netloc ['/'] [] hn (Or.inr rfl)
      rw [if_neg (show ¬ ([] : Str) ≠ [] from fun h => h rfl)] at hval
      rw [List.append_nil] at hval
      have hcore : ('/' :: '/' :: (p.netloc ++ ['/'])).getLast? = some '/' := by
        show (('/' :: '/' :: p.netloc) ++ ['/']).getLast? = some '/'
        exact List.getLast?_concat _
      have hlast : (urlunsplit p.scheme p.netloc ['/'] [] []).getLast? = some '/' := by
        rw [hval]
        by_cases hs : p.scheme ≠ []
        · rw [if_pos hs]
          rw [List.getLast?_append_of_ne_nil _ (by simp)]
          exact hcore
        · rw [if_neg hs]
          exact hcore
      rw [hnu]
      rw [if_neg (fun hcon => hcon.2 (Or.inr hpath))]
      rw [hnorm]
      exact hlast

/-- Instance of the amended C5 contract at concrete URLs: a malformed
input (an unmatched bracket in the authority) is returned unchanged, and
`http://e.com/` parses with root path, no parameters and no query, so
its normal form keeps the trailing slash. -/
theorem normalize_contract_amended_witness :
    normalize_url (s2l "http://[::1/x/") = s2l "http://[::1/x/" ∧
    '#' ∉ normalize_url (s2l "http://e.com/") ∧
    (normalize_url (s2l "http://e.com/")).getLast? = some '/' := by
  refine ⟨(normalize_contract_amended (s2l "http://[::1/x/")).1 (by decide), ?_, ?_⟩
  · exact ((normalize_contract_amended (s2l "http://e.com/")).2
      ⟨s2l "http", s2l "e.com", ['/'], [], [], []⟩ (by decide)).1
  · exact ((normalize_contract_amended (s2l "http://e.com/")).2
      ⟨s2l "http", s2l "e.com", ['/'], [], [], []⟩ (by decide)).2.2
      (by decide) rfl rfl rfl

/-- C6 (amended): the normalizer is idempotent on every URL without `?`
and `;` that parses with a nonempty authority.  (The counterexamples to
unrestricted idempotence live exactly in the excluded cases: a stripped
slash can expose a dangling query or parameter separator, and an empty
authority collapses and is later rebuilt.) -/
theorem normalize_idempotent_amended (u : Str) (p : ParseResult)
    (hsemi : ';' ∉ u) (hq : '?' ∉ u)
    (hp : urlparse u [] = some p) (hn : p.netloc ≠ []) :
    normalize_url (normalize_url u) = normalize_url u := by
  obtain ⟨hsch, hnl, hbm, hbh, ⟨hpa1, hpa2⟩, ⟨hpr1, hpr2⟩, hquF, hmem, hhead, hqtriv, hstriv⟩ :=
    urlparse_shape u p hp
  have hparams : p.params = [] := hstriv hsemi
  have hquery : p.query = [] := hqtriv hq
  have hπ : p.path = [] ∨ p.path.head? = some '/' := hhead hn
  have hπsafe : ∀ c ∈ p.path, isUnsafeByte c = false :=
    fun c hc => (hmem c (Or.inr (Or.inl hc))).2
  have hnsafe : ∀ c ∈ p.netloc, isUnsafeByte c = false :=
    fun c hc => (hmem c (Or.inl hc)).2
  have hsemiπ : ';' ∉ p.path := fun hc => hsemi (hmem _ (Or.inr (Or.inl hc))).1
  have hnorm : urlunparse ⟨p.scheme, p.netloc, p.path, p.params, p.query, []⟩
      = urlunsplit p.scheme p.netloc p.path [] [] := by
    show urlunsplit p.scheme p.netloc
        (if p.params ≠ [] then p.path ++ ';' :: p.params else p.path) p.query [] =
      urlunsplit p.scheme p.netloc p.path [] []
    rw [hparams, hquery, if_neg (fun h => h rfl)]
  have hnu : normalize_url u =
      (if (urlunparse ⟨p.scheme, p.netloc, p.path, p.params, p.query, []⟩).getLast?
            = some '/' ∧ ¬ (p.path = [] ∨ p.path = ['/']) then
        rstripSlash (urlunparse ⟨p.scheme, p.netloc, p.path, p.params, p.query, []⟩)
      else urlunparse ⟨p.scheme, p.netloc, p.path, p.params, p.query, []⟩) := by
    unfold normalize_url
    rw [hp]
  rw [hnorm] at hnu
  have hfix : ∀ π2 : Str, (π2 = [] ∨ π2.head? = some '/') →
      ('#' ∉ π2 ∧ '?' ∉ π2 ∧ ';' ∉ π2) →
      (∀ c ∈ π2, isUnsafeByte c = false) →
      normalize_url (urlunsplit p.scheme p.netloc π2 [] []) =
        (if (urlunsplit p.scheme p.netloc π2 [] []).getLast? = some '/' ∧
            ¬ (π2 = [] ∨ π2 = ['/']) then
          rstripSlash (urlunsplit p.scheme p.netloc π2 [] [])
        else urlunsplit p.scheme p.netloc π2 [] []) := by
    intro π2 hh2 hf2 hsafe2
    have hre := urlparse_build p.scheme p.netloc π2 hsch hn hnl hbm hbh hh2 hf2
        (fun c hc => hc.elim (hnsafe c) (hsafe2 c))
    have hnorm2 : urlunparse ⟨p.scheme, p.netloc, π2, [], [], []⟩
        = urlunsplit p.scheme p.netloc π2 [] [] := by
      show urlunsplit p.scheme p.netloc
          (if ([] : Str) ≠ [] then π2 ++ ';' :: [] else π2) [] [] =
        urlunsplit p.scheme p.netloc π2 [] []
      rw [if_neg (fun h => h rfl)]
    have hmain : normalize_url (urlunsplit p.scheme p.netloc π2 [] []) =
        (if (urlunparse ⟨p.scheme, p.netloc, π2, [], [], []⟩).getLast? = some '/' ∧
            ¬ (π2 = [] ∨ π2 = ['/']) then
          rstripSlash (urlunparse ⟨p.scheme, p.netloc, π2, [], [], []⟩)
        else urlunparse ⟨p.scheme, p.netloc, π2, [], [], []⟩) := by
      unfold normalize_url
      rw [hre]
    rw [hnorm2] at hmain
    exact hmain
  by_cases hcond : (urlunsplit p.scheme p.netloc p.path [] []).getLast? = some '/' ∧
      ¬ (p.path = [] ∨ p.path = ['/'])
  · rw [hnu, if_pos hcond]
    have hπne : p.path ≠ [] := fun h => hcond.2 (Or.inl h)
    have hπhead : p.path.head? = some '/' := by
      rcases hπ with h | h
      · exact absurd h hπne
      · exact h
    have hh2 : rstripSlash p.path = [] ∨ (rstripSlash p.path).head? = some '/' := by
      by_cases hr : rstripSlash p.path = []
      · exact Or.inl hr
      · right
        rw [rstripSlash_head _ hr, hπhead]
    have hval := urlunsplit_netloc_eq p.scheme p.netloc p.path [] hn hπ
    rw [if_neg (show ¬ ([] : Str) ≠ [] from fun h => h rfl), List.append_nil] at hval
    have hval2 := urlunsplit_netloc_eq p.scheme p.netloc (rstripSlash p.path) [] hn hh2
    rw [if_neg (show ¬ ([] : Str) ≠ [] from fun h => h rfl), List.append_nil] at hval2
    have hcorex : ∀ c, (([':', '/', '/'] ++ p.netloc : Str)).getLast? = some c → ¬ c = '/' := by
      intro c hcl hcon
      subst hcon
      rw [List.getLast?_append_of_ne_nil _ hn] at hcl
      exact hnl.1 (List.mem_of_mem_getLast? hcl)
    have hcorex2 : ∀ c, ((['/', '/'] ++ p.netloc : Str)).getLast? = some c → ¬ c = '/' := by
      intro c hcl hcon
      subst hcon
      rw [List.getLast?_append_of_ne_nil _ hn] at hcl
      exact hnl.1 (List.mem_of_mem_getLast? hcl)
    have hstrip : rstripSlash (urlunsplit p.scheme p.netloc p.path [] []) =
        urlunsplit p.scheme p.netloc (rstripSlash p.path) [] [] := by
      rw [hval, hval2]
      by_cases hs : p.scheme ≠ []
      · rw [if_pos hs, if_pos hs]
        have hsx : ∀ c, p.scheme.getLast? = some c → ¬ c = '/' := by
          intro c hcl hcon
          subst hcon
          rcases hsch with h0 | h0
          · rw [h0] at hcl
            cases hcl
          · exact (wfScheme_no_sep _ h0).2.1 (List.mem_of_mem_getLast? hcl)
        rw [rstripSlash_append p.scheme _ hsx]
        congr 1
        show rstripSlash (([':', '/', '/'] ++ p.netloc) ++ p.path)
            = ([':', '/', '/'] ++ p.netloc) ++ rstripSlash p.path
        exact rstripSlash_append _ _ hcorex
      · rw [if_neg hs, if_neg hs]
        show rstripSlash ((['/', '/'] ++ p.netloc) ++ p.path)
            = (['/', '/'] ++ p.netloc) ++ rstripSlash p.path
        exact rstripSlash_append _ _ hcorex2
    rw [hstrip]
    have hf2 : '#' ∉ rstripSlash p.path ∧ '?' ∉ rstripSlash p.path ∧
        ';' ∉ rstripSlash p.path :=
      ⟨fun hc => hpa1 (mem_of_mem_rstripSlash _ _ hc),
       fun hc => hpa2 (mem_of_mem_rstripSlash _ _ hc),
       fun hc => hsemiπ (mem_of_mem_rstripSlash _ _ hc)⟩
    rw [hfix (rstripSlash p.path) hh2 hf2
      (fun c hc => hπsafe c (mem_of_mem_rstripSlash _ _ hc))]
    rw [if_neg ?hlast]
    case hlast =>
      intro hcon
      have hcon1 := hcon.1
      rw [hval2] at hcon1
      have hnp2 : ¬ (p.netloc ++ rstripSlash p.path).getLast? = some '/' := by
        intro hcon2
        cases hπ2 : rstripSlash p.path with
        | nil =>
          rw [hπ2, List.append_nil] at hcon2
          exact hnl.1 (List.mem_of_mem_getLast? hcon2)
        | cons a as =>
          rw [hπ2, List.getLast?_append_of_ne_nil _ (by simp)] at hcon2
          refine rstripSlash_getLast p.path '/' ?_ rfl
          rw [hπ2]
          exact hcon2
      by_cases hs : p.scheme ≠ []
      · rw [if_pos hs] at hcon1
        rw [show p.scheme ++ ':' :: ('/' :: '/' :: (p.netloc ++ rstripSlash p.path)) =
            p.scheme ++ ([':', '/'] ++ ('/' :: (p.netloc ++ rstripSlash p.path))) from rfl]
            at hcon1
        rw [List.getLast?_append_of_ne_nil _ (by simp)] at hcon1
        rw [show ([':', '/'] ++ ('/' :: (p.netloc ++ rstripSlash p.path)) : Str) =
            [':', '/', '/'] ++ (p.netloc ++ rstripSlash p.path) from rfl] at hcon1
        rw [List.getLast?_append_of_ne_nil _ (by simp [hn])] at hcon1
        exact hnp2 hcon1
      · rw [if_neg hs] at hcon1
        rw [show ('/' :: '/' :: (p.netloc ++ rstripSlash p.path) : Str) =
            ['/', '/'] ++ (p.netloc ++ rstripSlash p.path) from rfl] at hcon1
        rw [List.getLast?_append_of_ne_nil _ (by simp [hn])] at hcon1
        exact hnp2 hcon1
  · rw [hnu, if_neg hcond]
    rw [hfix p.path hπ ⟨hpa1, hpa2, hsemiπ⟩ hπsafe]
    rw [if_neg hcond]

/-- Instance of amended idempotence: `http://e.com/a//` has no query or
parameter separator and a nonempty authority, and its normal form
`http://e.com/a` is indeed a fixed point. -/
theorem normalize_idempotent_amended_witness :
    ';' ∉ s2l "http://e.com/a//" ∧ '?' ∉ s2l "http://e.com/a//" ∧
    normalize_url (normalize_url (s2l "http://e.com/a//")) =
      normalize_url (s2l "http://e.com/a//") := by
  refine ⟨by decide, by decide, ?_⟩
  exact normalize_idempotent_amended (s2l "http://e.com/a//")
    ⟨s2l "http", s2l "e.com", s2l "/a//", [], [], []⟩
    (by decide) (by decide) (by decide) (by decide)

/-! ### Counting and bookkeeping over worker lists -/

/-- Updating one worker's state trades its contribution to a count. -/
theorem countP_set_list (ws : List WState) (i : Nat) (old w2 : WState) (p : WState → Bool)
    (h : ws.get? i = some old) :
    (ws.set i w2).countP p + (if p old then 1 else 0)
      = ws.countP p + (if p w2 then 1 else 0) := by
  induction ws generalizing i with
  | nil => cases h
  | cons x xs ih =>
    cases i with
    | zero =>
      cases h
      simp only [List.set, List.countP_cons]
      omega
    | succ n =>
      have h2 := ih n h
      simp only [List.set, List.countP_cons]
      omega

/-- Updating one worker's state trades its contribution to a cost sum. -/
theorem sum_map_set (f : WState → Nat) (ws : List WState) (i : Nat) (old w2 : WState)
    (h : ws.get? i = some old) :
    ((ws.set i w2).map f).sum + f old = (ws.map f).sum + f w2 := by
  induction ws generalizing i with
  | nil => cases h
  | cons x xs ih =>
    cases i with
    | zero =>
      cases h
      simp only [List.set, List.map_cons, List.sum_cons]
      omega
    | succ n =>
      have h2 := ih n h
      simp only [List.set, List.map_cons, List.sum_cons]
      omega

/-- The enqueue loop never grows the queue past the budget: either it
adds nothing, or the budget bound holds at the end. -/
theorem enqLoop_len (vis : Finset Str) (maxp : Nat) :
    ∀ links q s, (enqLoop vis maxp links q s).1.length ≤ q.length ∨
      vis.card + (enqLoop vis maxp links q s).1.length ≤ maxp := by
  intro links
  induction links with
  | nil => intro q s; exact Or.inl (Nat.le_refl _)
  | cons l rest ih =>
    intro q s
    simp only [enqLoop]
    by_cases h1 : l ∈ vis ∨ l ∈ s
    · rw [if_pos h1]
      exact ih q s
    · rw [if_neg h1]
      by_cases h2 : maxp ≤ vis.card + q.length
      · rw [if_pos h2]
        exact Or.inl (Nat.le_refl _)
      · rw [if_neg h2]
        rcases ih (q ++ [l]) (insert l s) with h3 | h3
        · right
          have h4 : (q ++ [l]).length = q.length + 1 := by simp
          omega
        · exact Or.inr h3

/-- Entries of the queue produced by the enqueue loop come from the old
queue or from the link list. -/
theorem enqLoop_mem (vis : Finset Str) (maxp : Nat) :
    ∀ links q s u, u ∈ (enqLoop vis maxp links q s).1 → u ∈ q ∨ u ∈ links := by
  intro links
  induction links with
  | nil => intro q s u hu; exact Or.inl hu
  | cons l rest ih =>
    intro q s u hu
    simp only [enqLoop] at hu
    by_cases h1 : l ∈ vis ∨ l ∈ s
    · rw [if_pos h1] at hu
      rcases ih q s u hu with h | h
      · exact Or.inl h
      · exact Or.inr (List.mem_cons_of_mem _ h)
    · rw [if_neg h1] at hu
      by_cases h2 : maxp ≤ vis.card + q.length
      · rw [if_pos h2] at hu
        exact Or.inl hu
      · rw [if_neg h2] at hu
        rcases ih (q ++ [l]) (insert l s) u hu with h | h
        · rcases List.mem_append.mp h with h3 | h3
          · exact Or.inl h3
          · exact Or.inr (by simp at h3; simp [h3])
        · exact Or.inr (List.mem_cons_of_mem _ h)

/-- The visited set only grows along a step. -/
theorem step_visited_mono (H : Type) (P : Params H) (s : Sys) (l : Label) (s2 : Sys)
    (h : Step H P s l s2) : s.sh.visited ⊆ s2.sh.visited := by
  cases h <;> first
    | exact Finset.Subset.refl _
    | exact Finset.subset_insert _ _

/-- The processed-name set only grows along a step. -/
theorem step_processed_mono (H : Type) (P : Params H) (s : Sys) (l : Label) (s2 : Sys)
    (h : Step H P s l s2) : s.sh.processed_names ⊆ s2.sh.processed_names := by
  cases h <;> first
    | exact Finset.Subset.refl _
    | exact Finset.subset_insert _ _

/-- Whether a worker is in flight on raw URL `u`. -/
def isInflightUrl (u : Str) : WState → Bool
  | .inflight url _ => url = u
  | _ => false

/-- How many workers are in flight on raw URL `u`. -/
def inflightCount (u : Str) (ws : List WState) : Nat := ws.countP (isInflightUrl u)

/-- A genuine take of key `k` happens only when `k` is not yet visited,
and marks it visited in the same atomic step. -/
theorem step_take_mark (H : Type) (P : Params H) (s : Sys) (l : Label) (s2 : Sys) (k : Str)
    (h : Step H P s l s2) (ht : isTakeOf k l = true) :
    k ∉ s.sh.visited ∧ k ∈ s2.sh.visited := by
  cases h
  case take i url rest h1 h2 h3 h4 =>
    simp only [isTakeOf, decide_eq_true_eq] at ht
    subst ht
    exact ⟨h4, Finset.mem_insert_self _ _⟩
  all_goals simp [isTakeOf] at ht

/-- Take at-most-once engine: along any execution from a state where `k`
is unvisited, `k` is taken at most once, and a take leaves it visited. -/
theorem take_once_aux (H : Type) (P : Params H) (k : Str) (s0 : Sys) (tr : List Label)
    (s2 : Sys) (h : Reach H P s0 tr s2) :
    k ∉ s0.sh.visited →
      tr.countP (isTakeOf k) ≤ 1 ∧ (1 ≤ tr.countP (isTakeOf k) → k ∈ s2.sh.visited) := by
  induction h with
  | refl => intro h0; simp
  | tail s1 s2 tr l hr hst ih =>
    intro h0
    obtain ⟨ih1, ih2⟩ := ih h0
    rw [List.countP_append]
    cases hl : isTakeOf k l with
    | false =>
      simp only [List.countP_cons, List.countP_nil, hl, if_false, Bool.false_eq_true]
      refine ⟨by omega, fun hc => ?_⟩
      exact step_visited_mono H P s1 l s2 hst (ih2 (by omega))
    | true =>
      obtain ⟨hnot, hmem⟩ := step_take_mark H P s1 l s2 k hst hl
      have hz : tr.countP (isTakeOf k) = 0 := by
        by_contra hnz
        exact hnot (ih2 (by omega))
      simp only [List.countP_cons, List.countP_nil, hl, if_true]
      exact ⟨by omega, fun hc => hmem⟩

/-- One step balances fetch events against takes through the in-flight
worker count. -/
theorem step_inflight (H : Type) (P : Params H) (s : Sys) (l : Label) (s2 : Sys) (u : Str)
    (h : Step H P s l s2) :
    List.countP (isFetchOf u) [l] + inflightCount u s2.ws
      = List.countP (isTakeUrl u) [l] + inflightCount u s.ws := by
  cases h
  case exit i h1 h2 =>
    have hc := countP_set_list s.ws i .atLoop .halted (isInflightUrl u) h1
    simp [isInflightUrl] at hc
    simp [inflightCount, isFetchOf, isTakeUrl]
    omega
  case skip i url rest h1 h2 h3 h4 =>
    simp [isFetchOf, isTakeUrl]
  case take i url rest h1 h2 h3 h4 =>
    have hc := countP_set_list s.ws i .atLoop (.inflight url (normalize_url url))
      (isInflightUrl u) h1
    by_cases hu : url = u
    · subst hu
      simp [isInflightUrl] at hc
      simp [inflightCount, isFetchOf, isTakeUrl]
      omega
    · simp [isInflightUrl, hu] at hc
      simp [inflightCount, isFetchOf, isTakeUrl, hu]
      omega
  case fetchFail i url norm h1 h2 =>
    have hc := countP_set_list s.ws i (.inflight url norm) .atLoop (isInflightUrl u) h1
    by_cases hu : url = u
    · subst hu
      simp [isInflightUrl] at hc
      simp [inflightCount, isFetchOf, isTakeUrl]
      omega
    · simp [isInflightUrl, hu] at hc
      simp [inflightCount, isFetchOf, isTakeUrl, hu]
      omega
  case fetchOk i url norm name hpage h1 h2 h3 =>
    have hc := countP_set_list s.ws i (.inflight url norm)
      (.storing name (P.extractO url hpage).1 (P.extractO url hpage).2) (isInflightUrl u) h1
    by_cases hu : url = u
    · subst hu
      simp [isInflightUrl] at hc
      simp [inflightCount, isFetchOf, isTakeUrl]
      omega
    · simp [isInflightUrl, hu] at hc
      simp [inflightCount, isFetchOf, isTakeUrl, hu]
      omega
  case nameCrash i url norm hpage h1 h2 h3 =>
    have hc := countP_set_list s.ws i (.inflight url norm) .halted (isInflightUrl u) h1
    by_cases hu : url = u
    · subst hu
      simp [isInflightUrl] at hc
      simp [inflightCount, isFetchOf, isTakeUrl]
      omega
    · simp [isInflightUrl, hu] at hc
      simp [inflightCount, isFetchOf, isTakeUrl, hu]
      omega
  case storeNew i name title links t h1 h2 =>
    have hc := countP_set_list s.ws i (.storing name title links) (.enqueuing links)
      (isInflightUrl u) h1
    simp [isInflightUrl] at hc
    simp [inflightCount, isFetchOf, isTakeUrl]
    omega
  case storeDup i name title links h1 h2 =>
    have hc := countP_set_list s.ws i (.storing name title links) (.enqueuing links)
      (isInflightUrl u) h1
    simp [isInflightUrl] at hc
    simp [inflightCount, isFetchOf, isTakeUrl]
    omega
  case enq i links h1 =>
    have hc := countP_set_list s.ws i (.enqueuing links) .atLoop (isInflightUrl u) h1
    simp [isInflightUrl] at hc
    simp [inflightCount, isFetchOf, isTakeUrl]
    omega

/-- Fetch events are balanced against takes along any execution. -/
theorem fetch_take_aux (H : Type) (P : Params H) (u : Str) (s0 : Sys) (tr : List Label)
    (s2 : Sys) (h : Reach H P s0 tr s2) :
    tr.countP (isFetchOf u) + inflightCount u s2.ws
      = tr.countP (isTakeUrl u) + inflightCount u s0.ws := by
  induction h with
  | refl => rfl
  | tail s1 s2 tr l hr hst ih =>
    rw [List.countP_append, List.countP_append]
    have hstep := step_inflight H P s1 l s2 u hst
    omega

/-- Demonstration parameters for witnessing the trace theorems. -/
def demoParams : Params Unit :=
  ⟨s2l "http://e.com/", 2, fun _ => none, fun _ _ => (s2l "No Title", []), []⟩

/-- C1: at-most-once fetch.  In every crawl execution (any worker count,
any oracles), each normalized key is taken from the frontier at most
once, and every network fetch of a raw URL is matched by a prior take of
that URL — so a popped entry whose key is already visited, being merely
skipped, is never fetched. -/
theorem at_most_once_fetch (H : Type) (P : Params H) (w : Nat) (tr : List Label)
    (s2 : Sys) (h : Reach H P (initSys H P w) tr s2) (k u : Str) :
    tr.countP (isTakeOf k) ≤ 1 ∧
      tr.countP (isFetchOf u) ≤ tr.countP (isTakeUrl u) := by
  constructor
  · exact (take_once_aux H P k _ tr s2 h (by simp [initSys])).1
  · have hb := fetch_take_aux H P u _ tr s2 h
    have hinit : inflightCount u (initSys H P w).ws = 0 := by
      simp only [initSys, inflightCount]
      induction w with
      | zero => rfl
      | succ n ih => simp [List.replicate, List.countP_cons, isInflightUrl, ih]
    omega

/-- The C1 statement holds on an actual one-step execution that takes
the seed of `demoParams`. -/
theorem at_most_once_fetch_witness :
    List.countP (isTakeOf (normalize_url (s2l "http://e.com/")))
        [Label.take (s2l "http://e.com/") (normalize_url (s2l "http://e.com/"))] ≤ 1 ∧
      List.countP (isFetchOf (s2l "http://e.com/"))
          [Label.take (s2l "http://e.com/") (normalize_url (s2l "http://e.com/"))] ≤
        List.countP (isTakeUrl (s2l "http://e.com/"))
          [Label.take (s2l "http://e.com/") (normalize_url (s2l "http://e.com/"))] := by
  have hr := Reach.tail _ _ _ _ _
    (@Reach.refl Unit demoParams (initSys Unit demoParams 1))
    (Step.take (initSys Unit demoParams 1) 0 (s2l "http://e.com/") []
      (by decide) (by decide) (by decide) (by decide))
  exact at_most_once_fetch Unit demoParams 1 _ _ hr
    (normalize_url (s2l "http://e.com/")) (s2l "http://e.com/")

/-- Budget engine: along any execution the visited-set size stays within
the budget if it started there, and so does the visited-plus-pending
total. -/
theorem budget_aux (H : Type) (P : Params H) (s0 : Sys) (tr : List Label)
    (s2 : Sys) (h : Reach H P s0 tr s2) :
    (s0.sh.visited.card ≤ P.max_pages →
      s2.sh.visited.card ≤ P.max_pages) ∧
    (s0.sh.visited.card + s0.sh.to_visit.length ≤ P.max_pages →
      s2.sh.visited.card + s2.sh.to_visit.length ≤ P.max_pages) := by
  induction h with
  | refl => exact ⟨fun h => h, fun h => h⟩
  | tail s1 s2 tr l hr hst ih =>
    obtain ⟨ih1, ih2⟩ := ih
    cases hst
    case exit i h1 h2 => exact ⟨ih1, ih2⟩
    case skip i url rest h1 h2 h3 h4 =>
      refine ⟨ih1, fun h0 => ?_⟩
      have := ih2 h0
      rw [h2] at this
      simp only [List.length_cons] at this
      simp only []
      omega
    case take i url rest h1 h2 h3 h4 =>
      have hcard : (insert (normalize_url url) s1.sh.visited).card
          = s1.sh.visited.card + 1 := Finset.card_insert_of_not_mem h4
      refine ⟨fun h0 => ?_, fun h0 => ?_⟩
      · simp only [hcard]
        omega
      · have := ih2 h0
        rw [h2] at this
        simp only [List.length_cons] at this
        simp only [hcard]
        omega
    case fetchFail i url norm h1 h2 => exact ⟨ih1, ih2⟩
    case fetchOk i url norm name hpage h1 h2 h3 => exact ⟨ih1, ih2⟩
    case nameCrash i url norm hpage h1 h2 h3 => exact ⟨ih1, ih2⟩
    case storeNew i name title links t h1 h2 => exact ⟨ih1, ih2⟩
    case storeDup i name title links h1 h2 => exact ⟨ih1, ih2⟩
    case enq i links h1 =>
      refine ⟨ih1, fun h0 => ?_⟩
      have hsum := ih2 h0
      rcases enqLoop_len s1.sh.visited P.max_pages links s1.sh.to_visit s1.sh.to_visit_set
        with hl | hl
      · simp only []
        omega
      · simp only []
        omega

/-- C2: the page budget invariant.  In every reachable state of a crawl,
at most `max_pages` keys are visited, and — provided the budget admits
the seed, `1 ≤ max_pages` — the visited keys and pending queue entries
together never exceed `max_pages`. -/
theorem budget_invariant (H : Type) (P : Params H) (w : Nat) (tr : List Label)
    (s2 : Sys) (h : Reach H P (initSys H P w) tr s2) :
    s2.sh.visited.card ≤ P.max_pages ∧
      (1 ≤ P.max_pages →
        s2.sh.visited.card + s2.sh.to_visit.length ≤ P.max_pages) := by
  obtain ⟨h1, h2⟩ := budget_aux H P _ tr s2 h
  constructor
  · exact h1 (by simp [initSys])
  · intro hmax
    refine h2 ?_
    simp only [initSys, Finset.card_empty, List.length_cons, List.length_nil]
    omega

/-- The C2 invariant holds in the state reached by taking the seed of
`demoParams`. -/
theorem budget_invariant_witness :
    ∃ s2 : Sys,
      Reach Unit demoParams (initSys Unit demoParams 1)
        ([] ++ [Label.take (s2l "http://e.com/") (normalize_url (s2l "http://e.com/"))]) s2 ∧
      s2.sh.visited.card ≤ demoParams.max_pages ∧
      (1 ≤ demoParams.max_pages →
        s2.sh.visited.card + s2.sh.to_visit.length ≤ demoParams.max_pages) := by
  have hr := Reach.tail _ _ _ _ _
    (@Reach.refl Unit demoParams (initSys Unit demoParams 1))
    (Step.take (initSys Unit demoParams 1) 0 (s2l "http://e.com/") []
      (by decide) (by decide) (by decide) (by decide))
  exact ⟨_, hr, budget_invariant Unit demoParams 1 _ _ hr⟩

/-- A store upsert of `name` happens only when `name` is not yet in
`processed_names`, and records it there in the same atomic step. -/
theorem step_upsert_mark (H : Type) (P : Params H) (s : Sys) (l : Label) (s2 : Sys) (n : Str)
    (h : Step H P s l s2) (ht : isUpsertOf n l = true) :
    n ∉ s.sh.processed_names ∧ n ∈ s2.sh.processed_names := by
  cases h
  case storeNew i name title links t h1 h2 =>
    simp only [isUpsertOf, decide_eq_true_eq] at ht
    subst ht
    exact ⟨h2, Finset.mem_insert_self _ _⟩
  all_goals simp [isUpsertOf] at ht

/-- Upsert at-most-once engine. -/
theorem upsert_once_aux (H : Type) (P : Params H) (n : Str) (s0 : Sys) (tr : List Label)
    (s2 : Sys) (h : Reach H P s0 tr s2) :
    n ∉ s0.sh.processed_names →
      tr.countP (isUpsertOf n) ≤ 1 ∧
        (1 ≤ tr.countP (isUpsertOf n) → n ∈ s2.sh.processed_names) := by
  induction h with
  | refl => intro h0; simp
  | tail s1 s2 tr l hr hst ih =>
    intro h0
    obtain ⟨ih1, ih2⟩ := ih h0
    rw [List.countP_append]
    cases hl : isUpsertOf n l with
    | false =>
      simp only [List.countP_cons, List.countP_nil, hl, if_false, Bool.false_eq_true]
      refine ⟨by omega, fun hc => ?_⟩
      exact step_processed_mono H P s1 l s2 hst (ih2 (by omega))
    | true =>
      obtain ⟨hnot, hmem⟩ := step_upsert_mark H P s1 l s2 n hst hl
      have hz : tr.countP (isUpsertOf n) = 0 := by
        by_contra hnz
        exact hnot (ih2 (by omega))
      simp only [List.countP_cons, List.countP_nil, hl, if_true]
      exact ⟨by omega, fun hc => hmem⟩

/-- C10: within one crawl run the store is upserted at most once per
identity — the `processed_names` check under the lock makes any
re-observation of the same derived name skip the store update. -/
theorem upsert_once_per_run (H : Type) (P : Params H) (w : Nat) (tr : List Label)
    (s2 : Sys) (h : Reach H P (initSys H P w) tr s2) (n : Str) :
    tr.countP (isUpsertOf n) ≤ 1 :=
  (upsert_once_aux H P n _ tr s2 h (by simp [initSys])).1

/-- The C10 statement holds on the one-step execution that takes the
seed of `demoParams`. -/
theorem upsert_once_per_run_witness :
    List.countP (isUpsertOf (s2l "e.com/"))
        [Label.take (s2l "http://e.com/") (normalize_url (s2l "http://e.com/"))] ≤ 1 := by
  have hr := Reach.tail _ _ _ _ _
    (@Reach.refl Unit demoParams (initSys Unit demoParams 1))
    (Step.take (initSys Unit demoParams 1) 0 (s2l "http://e.com/") []
      (by decide) (by decide) (by decide) (by decide))
  exact upsert_once_per_run Unit demoParams 1 _ _ hr (s2l "e.com/")

/-- The per-worker cost of the termination measure. -/
def wcost (maxp : Nat) : WState → Nat
  | .atLoop => 1
  | .inflight _ _ => maxp + 4
  | .storing _ _ _ => maxp + 3
  | .enqueuing _ => maxp + 2
  | .halted => 0

/-- The termination measure: budget headroom weighted high, plus the
queue length, plus every worker's remaining cost. -/
def sysMeasure (maxp : Nat) (s : Sys) : Nat :=
  (maxp + 3) * (maxp - s.sh.visited.card) + s.sh.to_visit.length +
    (s.ws.map (wcost maxp)).sum

/-- Every step strictly decreases the termination measure. -/
theorem step_measure_decrease (H : Type) (P : Params H) (s : Sys) (l : Label) (s2 : Sys)
    (h : Step H P s l s2) :
    sysMeasure P.max_pages s2 + 1 ≤ sysMeasure P.max_pages s := by
  cases h
  case exit i h1 h2 =>
    have hc := sum_map_set (wcost P.max_pages) s.ws i .atLoop .halted h1
    simp only [wcost] at hc
    simp only [sysMeasure]
    omega
  case skip i url rest h1 h2 h3 h4 =>
    simp only [sysMeasure, h2, List.length_cons]
    omega
  case take i url rest h1 h2 h3 h4 =>
    have hc := sum_map_set (wcost P.max_pages) s.ws i .atLoop
      (.inflight url (normalize_url url)) h1
    simp only [wcost] at hc
    have hcard : (insert (normalize_url url) s.sh.visited).card
        = s.sh.visited.card + 1 := Finset.card_insert_of_not_mem h4
    simp only [sysMeasure, h2, List.length_cons, hcard]
    have hd : P.max_pages - s.sh.visited.card
        = (P.max_pages - (s.sh.visited.card + 1)) + 1 := by omega
    rw [hd, Nat.mul_add, Nat.mul_one]
    omega
  case fetchFail i url norm h1 h2 =>
    have hc := sum_map_set (wcost P.max_pages) s.ws i (.inflight url norm) .atLoop h1
    simp only [wcost] at hc
    simp only [sysMeasure]
    omega
  case fetchOk i url norm name hpage h1 h2 h3 =>
    have hc := sum_map_set (wcost P.max_pages) s.ws i (.inflight url norm)
      (.storing name (P.extractO url hpage).1 (P.extractO url hpage).2) h1
    simp only [wcost] at hc
    simp only [sysMeasure]
    omega
  case nameCrash i url norm hpage h1 h2 h3 =>
    have hc := sum_map_set (wcost P.max_pages) s.ws i (.inflight url norm) .halted h1
    simp only [wcost] at hc
    simp only [sysMeasure]
    omega
  case storeNew i name title links t h1 h2 =>
    have hc := sum_map_set (wcost P.max_pages) s.ws i (.storing name title links)
      (.enqueuing links) h1
    simp only [wcost] at hc
    simp only [sysMeasure]
    omega
  case storeDup i name title links h1 h2 =>
    have hc := sum_map_set (wcost P.max_pages) s.ws i (.storing name title links)
      (.enqueuing links) h1
    simp only [wcost] at hc
    simp only [sysMeasure]
    omega
  case enq i links h1 =>
    have hc := sum_map_set (wcost P.max_pages) s.ws i (.enqueuing links) .atLoop h1
    simp only [wcost] at hc
    rcases enqLoop_len s.sh.visited P.max_pages links s.sh.to_visit s.sh.to_visit_set
      with hl | hl
    · simp only [sysMeasure]
      omega
    · have hcm : P.max_pages - s.sh.visited.card ≤ P.max_pages := Nat.sub_le _ _
      simp only [sysMeasure]
      omega

/-- The trace length is bounded by the initial measure. -/
theorem measure_bound_aux (H : Type) (P : Params H) (s0 : Sys) (tr : List Label)
    (s2 : Sys) (h : Reach H P s0 tr s2) :
    tr.length + sysMeasure P.max_pages s2 ≤ sysMeasure P.max_pages s0 := by
  induction h with
  | refl => simp
  | tail s1 s2 tr l hr hst ih =>
    have hd := step_measure_decrease H P s1 l s2 hst
    simp only [List.length_append, List.length_cons, List.length_nil]
    omega

/-- The idle workers of the initial state cost one step each. -/
theorem sum_wcost_replicate (maxp w : Nat) :
    ((List.replicate w WState.atLoop).map (wcost maxp)).sum = w := by
  induction w with
  | zero => rfl
  | succ n ih =>
    simp only [List.replicate, List.map_cons, List.sum_cons, ih, wcost]
    omega

/-- C9: termination.  Every crawl execution — any seed, any oracle
behaviour, any worker count `w` — performs at most
`(max_pages + 3) * max_pages + 1 + w` steps, so every worker's loop
terminates. -/
theorem crawl_terminates (H : Type) (P : Params H) (w : Nat) (tr : List Label)
    (s2 : Sys) (h : Reach H P (initSys H P w) tr s2) :
    tr.length ≤ (P.max_pages + 3) * P.max_pages + 1 + w := by
  have hb := measure_bound_aux H P _ tr s2 h
  have hinit : sysMeasure P.max_pages (initSys H P w)
      = (P.max_pages + 3) * P.max_pages + 1 + w := by
    simp only [sysMeasure, initSys, Finset.card_empty, Nat.sub_zero, List.length_cons,
      List.length_nil]
    rw [sum_wcost_replicate]
  omega

/-- The C9 bound holds on the one-step execution that takes the seed of
`demoParams`. -/
theorem crawl_terminates_witness :
    ([] ++ [Label.take (s2l "http://e.com/") (normalize_url (s2l "http://e.com/"))]).length ≤
      (demoParams.max_pages + 3) * demoParams.max_pages + 1 + 1 := by
  have hr := Reach.tail _ _ _ _ _
    (@Reach.refl Unit demoParams (initSys Unit demoParams 1))
    (Step.take (initSys Unit demoParams 1) 0 (s2l "http://e.com/") []
      (by decide) (by decide) (by decide) (by decide))
  exact crawl_terminates Unit demoParams 1 _ _ hr

/-! ### The seed scenario (C4) -/

/-- The crawl domain of the scenario. -/
def exDomain : Str := s2l "example.com"

/-- The seed URL. -/
def exR : Str := s2l "https://example.com/"

/-- The first same-domain link target. -/
def exA : Str := s2l "https://example.com/a"

/-- The second same-domain link target. -/
def exB : Str := s2l "https://example.com/b"

/-- The root page: links to `/a`, `/b` and a foreign URL. -/
def pageR : ParsedHtml :=
  .dom ⟨some ⟨some (s2l "Root")⟩,
    [⟨s2l "/a"⟩, ⟨s2l "/b"⟩, ⟨s2l "https://other.com/c"⟩]⟩

/-- The leaf pages `/a` and `/b`: a title and no links. -/
def pageLeaf : ParsedHtml :=
  .dom ⟨some ⟨some (s2l "Leaf")⟩, []⟩

/-- The scenario parameters: seed `https://example.com/`, budget 3, the
mocked network serving the three pages, and the real extractor. -/
def seedParams : Params ParsedHtml :=
  ⟨exR, 3,
   fun u => if u = exR then some pageR else if u = exA then some pageLeaf
     else if u = exB then some pageLeaf else none,
   fun base h => extract_title_and_links exDomain base h,
   []⟩

/-- The canonical single-worker execution of the scenario: it crawls the
root, `/a` and `/b`, stores them under `example.com/`, `example.com/a`
and `example.com/b`, and halts with an empty frontier. -/
theorem seedRun :
    ∃ tr sF, Reach ParsedHtml seedParams (initSys ParsedHtml seedParams 1) tr sF ∧
      sF.ws = [.halted] ∧ sF.sh.to_visit = [] ∧
      sF.sh.store.map Prod.fst =
        [s2l "example.com/", s2l "example.com/a", s2l "example.com/b"] ∧
      findRec sF.sh.store (s2l "example.com") = none := by
  have h0 := @Reach.refl ParsedHtml seedParams (initSys ParsedHtml seedParams 1)
  have h1 := Reach.tail _ _ _ _ _ h0
    (Step.take _ 0 exR [] (by decide) (by decide) (by decide) (by decide))
  have h2 := Reach.tail _ _ _ _ _ h1
    (Step.fetchOk _ 0 exR (normalize_url exR) (s2l "example.com/") pageR
      (by decide) (by decide) (by decide))
  have h3 := Reach.tail _ _ _ _ _ h2
    (Step.storeNew _ 0 (s2l "example.com/") (s2l "Root") [exA, exB] 0
      (by decide) (by decide))
  have h4 := Reach.tail _ _ _ _ _ h3
    (Step.enq _ 0 [exA, exB] (by decide))
  have h5 := Reach.tail _ _ _ _ _ h4
    (Step.take _ 0 exA [exB] (by decide) (by decide) (by decide) (by decide))
  have h6 := Reach.tail _ _ _ _ _ h5
    (Step.fetchOk _ 0 exA (normalize_url exA) (s2l "example.com/a") pageLeaf
      (by decide) (by decide) (by decide))
  have h7 := Reach.tail _ _ _ _ _ h6
    (Step.storeNew _ 0 (s2l "example.com/a") (s2l "Leaf") [] 1
      (by decide) (by decide))
  have h8 := Reach.tail _ _ _ _ _ h7
    (Step.enq _ 0 [] (by decide))
  have h9 := Reach.tail _ _ _ _ _ h8
    (Step.take _ 0 exB [] (by decide) (by decide) (by decide) (by decide))
  have h10 := Reach.tail _ _ _ _ _ h9
    (Step.fetchOk _ 0 exB (normalize_url exB) (s2l "example.com/b") pageLeaf
      (by decide) (by decide) (by decide))
  have h11 := Reach.tail _ _ _ _ _ h10
    (Step.storeNew _ 0 (s2l "example.com/b") (s2l "Leaf") [] 2
      (by decide) (by decide))
  have h12 := Reach.tail _ _ _ _ _ h11
    (Step.enq _ 0 [] (by decide))
  have h13 := Reach.tail _ _ _ _ _ h12
    (Step.exit _ 0 (by decide) (Or.inl (by decide)))
  exact ⟨_, _, h13, by decide, by decide, by decide, by decide⟩

/-- C4 counterexample: a complete single-worker execution of the
scenario stores the root page under `example.com/` — with its trailing
slash — so the final key set is `example.com/`, `example.com/a`,
`example.com/b`, and the claimed identity `example.com` is absent. -/
theorem seed_scenario_counterexample :
    ∃ tr sF, Reach ParsedHtml seedParams (initSys ParsedHtml seedParams 1) tr sF ∧
      sF.ws = [.halted] ∧ sF.sh.to_visit = [] ∧
      sF.sh.store.map Prod.fst =
        [s2l "example.com/", s2l "example.com/a", s2l "example.com/b"] ∧
      s2l "example.com" ∉ sF.sh.store.map Prod.fst := by
  obtain ⟨tr, sF, hr, hw, hq, hks, -⟩ := seedRun
  refine ⟨tr, sF, hr, hw, hq, hks, ?_⟩
  rw [hks]
  decide

/-- URLs that can ever sit in the scenario's frontier or be fetched. -/
def GoodUrl (u : Str) : Prop := u = exR ∨ u = exA ∨ u = exB

/-- Names that can ever reach the scenario's store. -/
def GoodName (n : Str) : Prop :=
  n = s2l "example.com/" ∨ n = s2l "example.com/a" ∨ n = s2l "example.com/b"

/-- Links that the scenario's extractor can produce. -/
def GoodLink (u : Str) : Prop := u = exA ∨ u = exB

/-- Constraint on one worker's control state in the scenario. -/
def WOk (ww : WState) : Prop :=
  (∀ url norm, ww = .inflight url norm → GoodUrl url) ∧
  (∀ name title links, ww = .storing name title links →
    GoodName name ∧ ∀ u ∈ links, GoodLink u) ∧
  (∀ links, ww = .enqueuing links → ∀ u ∈ links, GoodLink u)

/-- The halted state satisfies the worker constraint. -/
theorem wok_halted : WOk .halted := by
  refine ⟨?_, ?_, ?_⟩
  · intro url norm h
    cases h
  · intro name title links h
    cases h
  · intro links h
    cases h

/-- The idle state satisfies the worker constraint. -/
theorem wok_atLoop : WOk .atLoop := by
  refine ⟨?_, ?_, ?_⟩
  · intro url norm h
    cases h
  · intro name title links h
    cases h
  · intro links h
    cases h

/-- The scenario invariant: the frontier holds only the three known
URLs, workers only carry known payloads, and the store only holds the
three corrected identities. -/
def SeedInv (s : Sys) : Prop :=
  (∀ u ∈ s.sh.to_visit, GoodUrl u) ∧
  (∀ ww ∈ s.ws, WOk ww) ∧
  (∀ k ∈ s.sh.store.map Prod.fst, GoodName k)

/-- Updating one worker to a constrained state keeps all workers
constrained. -/
theorem seedInv_ws_set (ws : List WState) (i : Nat) (nw : WState)
    (hall : ∀ ww ∈ ws, WOk ww) (hnw : WOk nw) :
    ∀ ww ∈ ws.set i nw, WOk ww := by
  intro ww hww
  rcases List.mem_or_eq_of_mem_set hww with h | h
  · exact hall ww h
  · subst h
    exact hnw

/-- The keys after an upsert are the old keys, possibly plus the
upserted name. -/
theorem mem_add_or_update_keys (st : Store) (name title : Str) (now : Nat) (k : Str)
    (h : k ∈ ((add_or_update st name title now).2.map Prod.fst)) :
    k ∈ st.map Prod.fst ∨ k = name := by
  unfold add_or_update at h
  cases hf : findRec st name with
  | none =>
    rw [hf] at h
    dsimp only at h
    rw [List.map_append] at h
    rcases List.mem_append.mp h with h2 | h2
    · exact Or.inl h2
    · simp at h2
      exact Or.inr h2
  | some r =>
    rw [hf] at h
    dsimp only at h
    rw [List.map_map] at h
    rcases List.mem_map.mp h with ⟨p, hp, hk⟩
    left
    refine List.mem_map.mpr ⟨p, hp, ?_⟩
    rw [← hk]
    by_cases hpn : p.1 = name <;> simp [Function.comp, hpn]

/-- One scenario step preserves the invariant and never fetches the
foreign URL. -/
theorem seedStep_inv (s : Sys) (l : Label) (s2 : Sys)
    (h : Step ParsedHtml seedParams s l s2) (hinv : SeedInv s) :
    SeedInv s2 ∧ isFetchOf (s2l "https://other.com/c") l = false := by
  obtain ⟨hq, hw, hst⟩ := hinv
  cases h
  case exit i h1 h2 =>
    exact ⟨⟨hq, seedInv_ws_set s.ws i _ hw wok_halted, hst⟩, rfl⟩
  case skip i url rest h1 h2 h3 h4 =>
    refine ⟨⟨?_, hw, hst⟩, rfl⟩
    intro u hu
    refine hq u ?_
    rw [h2]
    exact List.mem_cons_of_mem _ hu
  case take i url rest h1 h2 h3 h4 =>
    have hgood : GoodUrl url := hq url (by rw [h2]; exact List.mem_cons_self _ _)
    refine ⟨⟨?_, ?_, hst⟩, rfl⟩
    · intro u hu
      refine hq u ?_
      rw [h2]
      exact List.mem_cons_of_mem _ hu
    · refine seedInv_ws_set s.ws i _ hw ?_
      refine ⟨?_, ?_, ?_⟩
      · intro url2 norm2 he
        cases he
        exact hgood
      · intro name2 title2 links2 he
        cases he
      · intro links2 he
        cases he
  case fetchFail i url norm h1 h2 =>
    have hwok := hw _ (List.get?_mem h1)
    have hgood : GoodUrl url := hwok.1 url norm rfl
    refine ⟨⟨hq, seedInv_ws_set s.ws i _ hw wok_atLoop, hst⟩, ?_⟩
    rcases hgood with h4 | h4 | h4 <;> subst h4 <;> decide
  case fetchOk i url norm name hpage h1 h2 h3 =>
    have hwok := hw _ (List.get?_mem h1)
    have hgood : GoodUrl url := hwok.1 url norm rfl
    refine ⟨⟨hq, ?_, hst⟩, ?_⟩
    · refine seedInv_ws_set s.ws i _ hw ?_
      rcases hgood with h4 | h4 | h4 <;> subst h4
      · rw [show seedParams.fetchO exR = some pageR from by decide] at h2
        cases h2
        rw [show make_name_from_url exR = some (s2l "example.com/") from by decide] at h3
        cases h3
        refine ⟨?_, ?_, ?_⟩
        · intro url2 norm2 he
          cases he
        · intro name2 title2 links2 he
          cases he
          refine ⟨Or.inl rfl, ?_⟩
          intro u hu
          rw [show (seedParams.extractO exR pageR).2 = [exA, exB] from by decide] at hu
          rcases List.mem_cons.mp hu with h5 | h5
          · exact Or.inl h5
          · rcases List.mem_cons.mp h5 with h6 | h6
            · exact Or.inr h6
            · cases h6
        · intro links2 he
          cases he
      · rw [show seedParams.fetchO exA = some pageLeaf from by decide] at h2
        cases h2
        rw [show make_name_from_url exA = some (s2l "example.com/a") from by decide] at h3
        cases h3
        refine ⟨?_, ?_, ?_⟩
        · intro url2 norm2 he
          cases he
        · intro name2 title2 links2 he
          cases he
          refine ⟨Or.inr (Or.inl rfl), ?_⟩
          intro u hu
          rw [show (seedParams.extractO exA pageLeaf).2 = [] from by decide] at hu
          cases hu
        · intro links2 he
          cases he
      · rw [show seedParams.fetchO exB = some pageLeaf from by decide] at h2
        cases h2
        rw [show make_name_from_url exB = some (s2l "example.com/b") from by decide] at h3
        cases h3
        refine ⟨?_, ?_, ?_⟩
        · intro url2 norm2 he
          cases he
        · intro name2 title2 links2 he
          cases he
          refine ⟨Or.inr (Or.inr rfl), ?_⟩
          intro u hu
          rw [show (seedParams.extractO exB pageLeaf).2 = [] from by decide] at hu
          cases hu
        · intro links2 he
          cases he
    · rcases hgood with h4 | h4 | h4 <;> subst h4 <;> decide
  case nameCrash i url norm hpage h1 h2 h3 =>
    have hwok := hw _ (List.get?_mem h1)
    have hgood : GoodUrl url := hwok.1 url norm rfl
    exfalso
    rcases hgood with h4 | h4 | h4 <;> subst h4
    · rw [show make_name_from_url exR = some (s2l "example.com/") from by decide] at h3
      cases h3
    · rw [show make_name_from_url exA = some (s2l "example.com/a") from by decide] at h3
      cases h3
    · rw [show make_name_from_url exB = some (s2l "example.com/b") from by decide] at h3
      cases h3
  case storeNew i name title links t h1 h2 =>
    have hwok := hw _ (List.get?_mem h1)
    obtain ⟨hname, hlinks⟩ := hwok.2.1 name title links rfl
    refine ⟨⟨hq, ?_, ?_⟩, rfl⟩
    · refine seedInv_ws_set s.ws i _ hw ?_
      refine ⟨?_, ?_, ?_⟩
      · intro url2 norm2 he
        cases he
      · intro name2 title2 links2 he
        cases he
      · intro links2 he
        cases he
        exact hlinks
    · intro k hk
      rcases mem_add_or_update_keys s.sh.store name title t k hk with h4 | h4
      · exact hst k h4
      · rw [h4]
        exact hname
  case storeDup i name title links h1 h2 =>
    have hwok := hw _ (List.get?_mem h1)
    obtain ⟨-, hlinks⟩ := hwok.2.1 name title links rfl
    refine ⟨⟨hq, ?_, hst⟩, rfl⟩
    refine seedInv_ws_set s.ws i _ hw ?_
    refine ⟨?_, ?_, ?_⟩
    · intro url2 norm2 he
      cases he
    · intro name2 title2 links2 he
      cases he
    · intro links2 he
      cases he
      exact hlinks
  case enq i links h1 =>
    have hwok := hw _ (List.get?_mem h1)
    have hlinks := hwok.2.2 links rfl
    refine ⟨⟨?_, seedInv_ws_set s.ws i _ hw wok_atLoop, hst⟩, rfl⟩
    intro u hu
    rcases enqLoop_mem s.sh.visited seedParams.max_pages links s.sh.to_visit
      s.sh.to_visit_set u hu with h4 | h4
    · exact hq u h4
    · rcases hlinks u h4 with h5 | h5
      · exact Or.inr (Or.inl h5)
      · exact Or.inr (Or.inr h5)

/-- The scenario invariant holds initially for any worker count. -/
theorem seedInv_init (w : Nat) : SeedInv (initSys ParsedHtml seedParams w) := by
  refine ⟨?_, ?_, ?_⟩
  · intro u hu
    rcases List.mem_cons.mp hu with h | h
    · exact Or.inl h
    · cases h
  · intro ww hww
    rw [List.eq_of_mem_replicate hww]
    exact wok_atLoop
  · intro k hk
    cases hk

/-- The scenario invariant holds in every reachable state, and no step
of the trace fetches the foreign URL. -/
theorem seedReach_inv (s0 : Sys) (tr : List Label) (s2 : Sys)
    (h : Reach ParsedHtml seedParams s0 tr s2) :
    SeedInv s0 →
      SeedInv s2 ∧ ∀ l ∈ tr, isFetchOf (s2l "https://other.com/c") l = false := by
  induction h with
  | refl => intro h0; exact ⟨h0, by simp⟩
  | tail s1 s2 tr l hr hst ih =>
    intro h0
    obtain ⟨hi, hl⟩ := ih h0
    obtain ⟨hi2, hl2⟩ := seedStep_inv s1 l s2 hst hi
    refine ⟨hi2, ?_⟩
    intro l2 hl3
    rcases List.mem_append.mp hl3 with h4 | h4
    · exact hl l2 h4
    · rcases List.mem_cons.mp h4 with h5 | h5
      · rw [h5]
        exact hl2
      · cases h5

/-- C4 (amended): in the seed scenario, across every schedule and worker
count, the foreign URL `https://other.com/c` is never fetched and only
the three identities `example.com/`, `example.com/a`, `example.com/b`
(the root keeps its trailing slash) can reach the store; and the
canonical complete run stores exactly those three. -/
theorem seed_scenario_amended (w : Nat) (tr : List Label) (s2 : Sys)
    (h : Reach ParsedHtml seedParams (initSys ParsedHtml seedParams w) tr s2) :
    (∀ l ∈ tr, isFetchOf (s2l "https://other.com/c") l = false) ∧
    (∀ k ∈ s2.sh.store.map Prod.fst,
      k = s2l "example.com/" ∨ k = s2l "example.com/a" ∨ k = s2l "example.com/b") ∧
    (∃ tr2 sF, Reach ParsedHtml seedParams (initSys ParsedHtml seedParams 1) tr2 sF ∧
      sF.ws = [.halted] ∧ sF.sh.to_visit = [] ∧
      sF.sh.store.map Prod.fst =
        [s2l "example.com/", s2l "example.com/a", s2l "example.com/b"]) := by
  obtain ⟨hinv, hfetch⟩ := seedReach_inv _ tr s2 h (seedInv_init w)
  refine ⟨hfetch, hinv.2.2, ?_⟩
  obtain ⟨tr2, sF, hr, hw, hq, hks, -⟩ := seedRun
  exact ⟨tr2, sF, hr, hw, hq, hks⟩

/-- The amended C4 statement instantiated on the one-step execution of
the scenario that takes the seed. -/
theorem seed_scenario_amended_witness :
    (∀ l ∈ ([] ++ [Label.take exR (normalize_url exR)]),
      isFetchOf (s2l "https://other.com/c") l = false) ∧
    (∃ tr2 sF, Reach ParsedHtml seedParams (initSys ParsedHtml seedParams 1) tr2 sF ∧
      sF.ws = [.halted] ∧ sF.sh.to_visit = [] ∧
      sF.sh.store.map Prod.fst =
        [s2l "example.com/", s2l "example.com/a", s2l "example.com/b"]) := by
  have hr := Reach.tail _ _ _ _ _
    (@Reach.refl ParsedHtml seedParams (initSys ParsedHtml seedParams 1))
    (Step.take (initSys ParsedHtml seedParams 1) 0 exR []
      (by decide) (by decide) (by decide) (by decide))
  obtain ⟨ha, -, hc⟩ := seed_scenario_amended 1 _ _ hr
  exact ⟨ha, hc⟩
